import Mathlib

/-!
# Verification of the `react.js` incremental rendering engine

This file is a shallow embedding, in Lean 4, of the single-file React
re-implementation in `src/react.js` (with its two earlier variants under
`src/unnamed/`), together with theorems settling the specification claims
about it.

Modelling conventions:

* JavaScript property values appearing in element props are modelled by the
  inductive `Value`; function-valued props (event handlers, state actions)
  are identified by a numeric id, mirroring the reference equality `===`
  that the source applies to them.
* JavaScript objects holding props are modelled as association lists with
  unique keys, in insertion order (`Object.keys` enumerates string keys in
  insertion order).
* The reserved `children` key of a props object is held in a separate field
  (`childEls` on fibers, `children` on elements).  Every place in the source
  that enumerates props keys filters `children` out (`isProperty` excludes
  it and `isEvent` does not match it), so the split is observation-equivalent.
* Mutable heap structure (the DOM, the fiber graph) becomes explicit state
  passing: DOM nodes live in an append-only arena indexed by `Nat`, the
  fiber tree is a recursive value and the work loop's travelling pointer
  (`_nextWipFiberNode`, which follows `parent` references) is a zipper over
  that tree.
* Loops and recursion over heap structures take an explicit fuel argument
  so that every definition is executable by the kernel; running out of fuel
  is distinguished from the JavaScript exceptions the source can actually
  throw (`EngErr.typeError`, see `reconcileChildren`).
* `type` fields are strings (host tags or `"TEXT_ELEMENT"`).  Functional
  components (the `isFunction(fiber.type)` branch of `performUnitOfWork`)
  are modelled separately at the hook level (`useState` below); the engine
  model covers host/text element trees, which is what the tree-shape claims
  quantify over.
-/

namespace ReactJs

/-! ## JavaScript values and props objects -/

/-- A JavaScript value stored in a props object: a string, a number, or a
function object.  Functions are compared by identity in the source
(`prev[key] !== next[key]`), modelled by a numeric id. -/
inductive Value where
  | str (s : String)
  | num (n : Int)
  | fn (id : Nat)
deriving DecidableEq, Repr

/-- A props object minus its reserved `children` key: an association list in
insertion order with (as for any JavaScript object) unique keys. -/
abbrev Props := List (String × Value)

/-- Property read `obj[key]`; `none` plays the role of `undefined`. -/
def jsGet (props : Props) (key : String) : Option Value :=
  (props.find? (fun kv => kv.1 = key)).map (fun kv => kv.2)

/-- The key list `Object.keys(obj)`, in insertion order. -/
def jsKeys (props : Props) : List String := props.map (fun kv => kv.1)

/-! ## React elements and `createElement` -/

mutual
/-- The `type` of a React element — the spec's `TypeTag`: a host tag
string (including the reserved `"TEXT_ELEMENT"`), or a reference to a
component function.  The source compares two `type` fields with `==`,
which between two function references is reference identity, so the model
carries a numeric identity `id` for that comparison (`elTypeEq`).  The
engine applies a component reference exactly once per fiber per pass, and
always to the props object stored beside it in the very same element
(`fiberNode.type(fiberNode.props)` in `updateFunctionalComponent`), so a
reference is modelled together with the element that this one application
returns (`rendered`): the component function, up to the constant function
with that return value, which coincides with any function body at every
call the engine makes. -/
inductive ElType where
  | tag (s : String)
  | fn (id : Nat) (rendered : Element)

/-- A React element object: `{ type, props: { ...props, children } }`.
Children slots may be `null` (`none`), since `createElement` keeps a `null`
child argument as a literal entry of the children array. -/
inductive Element where
  | mk (type : ElType) (props : Props) (children : List (Option Element))
end

/-- Embeds `isFunction(f)`, i.e. `f instanceof Function`, on a `type`
field: true exactly on a component-function reference. -/
def ElType.isFn : ElType → Bool
  | .tag _ => false
  | .fn _ _ => true

/-- The `==` comparison between two `type` fields: string equality between
two host tags, reference identity between two function references, and
`false` between a string and a function. -/
def elTypeEq : ElType → ElType → Bool
  | .tag s, .tag t => s = t
  | .fn i _, .fn j _ => i = j
  | _, _ => false

/-- The `type` field of an element. -/
def Element.type : Element → ElType
  | .mk t _ _ => t

/-- The non-`children` props of an element. -/
def Element.props : Element → Props
  | .mk _ p _ => p

/-- The `children` entry of an element's props. -/
def Element.children : Element → List (Option Element)
  | .mk _ _ cs => cs

/-- A JavaScript value passed as a child argument to `createElement`. -/
inductive JsChild where
  | elem (e : Element)
  | str (s : String)
  | num (n : Int)
  | null

/-- Embeds `function isObject(x) { return typeof x === "object"; }`.
Note `typeof null === "object"` in JavaScript, so a `null` child counts as
an object. -/
def isObject : JsChild → Bool
  | .elem _ => true
  | .null => true
  | .str _ => false
  | .num _ => false

/-- Reads a child already of object type back as an optional element: an
element is kept as itself, `null` stays `null`.  (Only reached under
`isObject child = true`.) -/
def asObjectChild : JsChild → Option Element
  | .elem e => some e
  | _ => none

/-- The primitive value of a non-object child, fed to `createTextElement`.
(Only reached under `isObject child = false`.) -/
def childText : JsChild → Value
  | .str s => .str s
  | .num n => .num n
  | _ => .str ""

/-- Embeds `createElement(type, props, ...children)`: wraps each child that
is not of object type into a text element, keeps object children (elements
and `null`) as they are. -/
def createElement (type : ElType) (props : Props) (children : List JsChild) :
    Element :=
  .mk type props
    (children.map (fun child =>
      if isObject child then asObjectChild child
      else some (.mk (.tag "TEXT_ELEMENT")
        [("nodeValue", childText child)] [])))

/-- Embeds `createTextElement(text)`, which returns
`createElement("TEXT_ELEMENT", { nodeValue: text })` (so with an empty
children array). -/
def createTextElement (text : Value) : Element :=
  createElement (.tag "TEXT_ELEMENT") [("nodeValue", text)] []

/-! ## Prop-key classification -/

/-- Embeds `isEvent(key)`: the key names an event listener iff it starts
with `"on"`. -/
def isEvent (key : String) : Bool := key.startsWith "on"

/-- Embeds `getEventType(key)`: lowercase the key and strip the leading
`"on"`. -/
def getEventType (key : String) : String := (key.toLower).drop 2

/-- Embeds `isProperty(key)`: a plain property key is anything that is
neither the reserved `children` key nor an event listener key. -/
def isProperty (key : String) : Bool := key ≠ "children" && !(isEvent key)

/-! ## Hooks (`useState`) -/

/-- A hook cell `{ state, queue }`: the committed value and the queue of
pending update actions pushed by `setState`. -/
structure Hook (α : Type) where
  state : α
  queue : List (α → α)

/-- Embeds the computation performed by `useState(initial)` on entry to a
component render: the previous cell for this hook index is
`alt.hooks[_hookIndex]` when the fiber has a previous generation whose
`hooks` array is present (`alt != null && alt.hooks != null`), and the new
cell starts from the old committed value (or `initial`) and drains the old
cell's queued actions in order. -/
def useState {α : Type} (altHooks : Option (Option (List (Hook α))))
    (hookIndex : Nat) (initial : α) : Hook α :=
  let oldHook : Option (Hook α) :=
    match altHooks with
    | some (some hooks) => hooks.get? hookIndex
    | _ => none
  let hook : Hook α :=
    { state := match oldHook with
        | some oh => oh.state
        | none => initial
      queue := [] }
  let actions : List (α → α) :=
    match oldHook with
    | some oh => oh.queue
    | none => []
  { hook with state := actions.foldl (fun st action => action st) hook.state }

/-- Embeds the queue push done by `setState(action)`:
`hook.queue.push(action)`.  (The rest of `setState` re-seeds the work-in-
progress root from the flushed root; see `rerenderRoot` below.) -/
def dispatch {α : Type} (hook : Hook α) (action : α → α) : Hook α :=
  { hook with queue := hook.queue ++ [action] }

/-! ## The browser DOM, as an arena of host nodes -/

/-- A host DOM node: either a text node (`document.createTextNode`) or a
tagged element (`document.createElement`), carrying the plain properties
that were assigned to it, its registered event listeners, and its child
node ids in order. -/
structure DomNode where
  isText : Bool
  tag : String
  attrs : Props
  listeners : List (String × Value)
  children : List Nat
deriving DecidableEq, Repr

/-- The DOM heap: an append-only arena, node ids being list indices. -/
abbrev DomArena := List DomNode

/-- One host mutation call performed by the engine, recorded for the frame
claims ("no host mutation calls occur"). -/
inductive Mut where
  | removeListener (dom : Nat) (eventType : String) (handler : Value)
  | deleteAttr (dom : Nat) (key : String)
  | setAttr (dom : Nat) (key : String) (v : Value)
  | addListener (dom : Nat) (eventType : String) (handler : Value)
  | appendChild (parent : Nat) (child : Nat)
  | removeChild (parent : Nat) (child : Nat)
  | errorLog (msg : String)
deriving DecidableEq, Repr

/-- Applies an update to one arena slot. -/
def domModify (s : DomArena) (d : Nat) (f : DomNode → DomNode) : DomArena :=
  s.modify f d

/-- Assignment `dom[key] = v`: overwrite in place when the key exists,
append otherwise (JavaScript keeps the insertion position of an existing
key). -/
def domSetAttr (s : DomArena) (d : Nat) (key : String) (v : Value) : DomArena :=
  domModify s d (fun n =>
    { n with attrs :=
        if (jsGet n.attrs key).isSome then
          n.attrs.map (fun kv => if kv.1 = key then (key, v) else kv)
        else n.attrs ++ [(key, v)] })

/-- Deletion `delete dom[key]`. -/
def domDeleteAttr (s : DomArena) (d : Nat) (key : String) : DomArena :=
  domModify s d (fun n => { n with attrs := n.attrs.filter (fun kv => kv.1 ≠ key) })

/-- Call `dom.addEventListener(eventType, handler)`; a duplicate
(type, listener) pair is ignored, as per the DOM specification. -/
def domAddListener (s : DomArena) (d : Nat) (eventType : String) (h : Value) :
    DomArena :=
  domModify s d (fun n =>
    { n with listeners :=
        if (eventType, h) ∈ n.listeners then n.listeners
        else n.listeners ++ [(eventType, h)] })

/-- Call `dom.removeEventListener(eventType, handler)`: removes the matching
registration if present. -/
def domRemoveListener (s : DomArena) (d : Nat) (eventType : String) (h : Value) :
    DomArena :=
  domModify s d (fun n =>
    { n with listeners := n.listeners.filter (fun p => p ≠ (eventType, h)) })

/-- Call `parent.appendChild(child)`. -/
def domAppendChild (s : DomArena) (parent child : Nat) : DomArena :=
  domModify s parent (fun n => { n with children := n.children ++ [child] })

/-! ## `updateDom`: applying a prop delta to a host node -/

/-- Embeds `isNew(prev, next)(key)`: `prev[key] !== next[key]`. -/
def isNewKey (prev next : Props) (key : String) : Bool :=
  jsGet prev key ≠ jsGet next key

/-- Embeds `isGone(next)(key)`: `!(key in next)`. -/
def isGoneKey (next : Props) (key : String) : Bool :=
  (jsGet next key).isNone

/-- The exact sequence of host calls `updateDom(dom, prevProps, nextProps)`
makes, in source order: removed/changed listeners are unregistered, gone
plain properties deleted, new/changed plain properties set, new/changed
listeners registered.  The reserved `children` key never appears because
`isProperty` excludes it and `isEvent` does not match it. -/
def updateDomMuts (d : Nat) (prevProps nextProps : Props) : List Mut :=
  (((jsKeys prevProps).filter isEvent).filter
      (fun key => isGoneKey nextProps key || isNewKey prevProps nextProps key)).map
    (fun key => Mut.removeListener d (getEventType key)
      ((jsGet prevProps key).getD (.str "")))
  ++ (((jsKeys prevProps).filter isProperty).filter (isGoneKey nextProps)).map
    (fun key => Mut.deleteAttr d key)
  ++ (((jsKeys nextProps).filter isProperty).filter (isNewKey prevProps nextProps)).map
    (fun key => Mut.setAttr d key ((jsGet nextProps key).getD (.str "")))
  ++ (((jsKeys nextProps).filter isEvent).filter (isNewKey prevProps nextProps)).map
    (fun key => Mut.addListener d (getEventType key)
      ((jsGet nextProps key).getD (.str "")))

/-- Applies one recorded host call to the arena. -/
def applyMut (s : DomArena) : Mut → DomArena
  | .removeListener d et h => domRemoveListener s d et h
  | .deleteAttr d key => domDeleteAttr s d key
  | .setAttr d key v => domSetAttr s d key v
  | .addListener d et h => domAddListener s d et h
  | .appendChild p c => domAppendChild s p c
  | .removeChild p c => domModify s p (fun n =>
      { n with children := n.children.filter (fun x => x ≠ c) })
  | .errorLog _ => s

/-- Embeds `updateDom(dom, prevProps, nextProps)`: performs the delta calls
of `updateDomMuts` against the arena and reports them. -/
def updateDom (s : DomArena) (d : Nat) (prevProps nextProps : Props) :
    DomArena × List Mut :=
  let muts := updateDomMuts d prevProps nextProps
  (muts.foldl applyMut s, muts)

/-- Embeds `createDom(fiber)`: allocates a text node for `"TEXT_ELEMENT"`
fibers and a tagged element otherwise, then applies all props to the fresh
node via `updateDom(dom, {}, fiber.props)`.  Returns the new arena, the new
node's id, and the host calls made. -/
def createDom (s : DomArena) (type : Option ElType) (props : Props) :
    DomArena × Nat × List Mut :=
  let node : DomNode :=
    match type with
    | some (.tag t) =>
      if t = "TEXT_ELEMENT" then
        { isText := true, tag := "", attrs := [], listeners := [],
          children := [] }
      else
        { isText := false, tag := t, attrs := [], listeners := [],
          children := [] }
    | _ =>
      -- `document.createElement` on a non-string argument; unreachable in
      -- the engine: `createDom` is only called by `updateVanillaComponent`
      -- (so never on a component function), and the root fiber - the only
      -- fiber with `undefined` type - always carries the container dom
      { isText := false, tag := "undefined", attrs := [],
        listeners := [], children := [] }
  let d := s.length
  let (s₁, muts) := updateDom (s ++ [node]) d [] props
  (s₁, d, muts)

/-! ## Fibers

A fiber node of the source is a mutable record
`{ type, props, dom, parent, child, sibling, alt, effectTag }`.  Here the
owning `child`/`sibling` linkage becomes the `children` list (first child,
then the sibling chain), the non-owning `parent` pointer is recovered from
the zipper used by the work loop, `alt` carries the previous-generation
fiber subtree, and the reserved `children` entry of `props` is the separate
field `childEls`. -/

/-- A fiber node.  `type = none` models the `undefined` type of the root
fiber created by `render`/`setState`. -/
inductive Fiber where
  | mk (type : Option ElType) (props : Props) (childEls : List (Option Element))
       (dom : Option Nat) (alt : Option Fiber) (effectTag : Option String)
       (children : List Fiber)

/-- The `type` field of a fiber. -/
def Fiber.type : Fiber → Option ElType
  | .mk t _ _ _ _ _ _ => t

/-- The non-`children` props of a fiber. -/
def Fiber.props : Fiber → Props
  | .mk _ p _ _ _ _ _ => p

/-- The `children` entry of a fiber's props: the element list reconciled
when the fiber is processed. -/
def Fiber.childEls : Fiber → List (Option Element)
  | .mk _ _ ce _ _ _ _ => ce

/-- The `dom` field: the materialized host node id, if any. -/
def Fiber.dom : Fiber → Option Nat
  | .mk _ _ _ d _ _ _ => d

/-- The `alt` field: the previous-generation fiber at this tree position. -/
def Fiber.alt : Fiber → Option Fiber
  | .mk _ _ _ _ a _ _ => a

/-- The `effectTag` field (`"PLACEMENT"`, `"UPDATE"`, `"DELETION"`, or
`none` for the untagged root). -/
def Fiber.effectTag : Fiber → Option String
  | .mk _ _ _ _ _ tag _ => tag

/-- The child chain: first child followed by its sibling chain. -/
def Fiber.children : Fiber → List Fiber
  | .mk _ _ _ _ _ _ cs => cs

/-- Copy of a fiber with its `dom` field assigned. -/
def Fiber.withDom (f : Fiber) (d : Option Nat) : Fiber :=
  .mk f.type f.props f.childEls d f.alt f.effectTag f.children

/-- Copy of a fiber with its `effectTag` field assigned (the mutation
`altNode.effectTag = "DELETION"` performed by the reconciler). -/
def Fiber.withTag (f : Fiber) (tag : Option String) : Fiber :=
  .mk f.type f.props f.childEls f.dom f.alt tag f.children

/-- Copy of a fiber with its child chain assigned (the `child`/`sibling`
wiring performed by the reconciler). -/
def Fiber.withChildren (f : Fiber) (cs : List Fiber) : Fiber :=
  .mk f.type f.props f.childEls f.dom f.alt f.effectTag cs

/-! ## `reconcileChildren`

The source walks `elements[index]` in lockstep with the old fiber chain
`wipFiberNode.alt.child`, advancing both cursors every iteration.  The loop
body first classifies the position (same type ⇒ `UPDATE` fiber reusing the
old dom; else a `PLACEMENT` fiber when an element exists, and a `DELETION`
tag + push onto `_wipDeletions` when an old fiber exists), and only then
links the new node: `wipFiberNode.child = newFiberNode` on the first
iteration, `prevSibling.sibling = newFiberNode` afterwards.  The linking
step is unguarded, so when the previous iteration produced a null
`newFiberNode` (its element slot was empty) and another iteration follows,
`prevSibling` is `null` and the assignment throws a TypeError.  The model
returns the deletions pushed so far paired with `none` at exactly that
point. -/

/-- The reconciliation loop after the element list is exhausted
(`index ≥ elements.length`, old fibers remain): every remaining old fiber
is tagged `"DELETION"` and pushed, `newFiberNode` stays null.  `first` is
true when this is still iteration 0; `prevNull` records whether the
previous iteration produced a null `newFiberNode`. -/
def reconcileOlds (first prevNull : Bool) (olds : List Fiber) :
    List Fiber × Option (List Fiber) :=
  match olds with
  | [] => ([], some [])
  | old :: rest =>
    let deleted := old.withTag (some "DELETION")
    if !first && prevNull then
      ([deleted], none)
    else
      match reconcileOlds false true rest with
      | (dels, res) => (deleted :: dels, res)

/-- The reconciliation loop while elements remain.  Returns the deletions
pushed (in push order) and, unless the linking step crashed, the surviving
child chain. -/
def reconcileEls (els : List (Option Element)) (olds : List Fiber)
    (first prevNull : Bool) : List Fiber × Option (List Fiber) :=
  match els with
  | [] => reconcileOlds first prevNull olds
  | element :: restEls =>
    let altNode := olds.head?
    let sameType : Bool :=
      match altNode, element with
      | some old, some e =>
        match old.type with
        | some ot => elTypeEq ot e.type
        | none => false
      | _, _ => false
    let newFiber : Option Fiber :=
      if sameType then
        match altNode, element with
        | some old, some e =>
          some (.mk old.type e.props e.children old.dom (some old)
            (some "UPDATE") [])
        | _, _ => none
      else
        match element with
        | some e =>
          some (.mk (some e.type) e.props e.children none none
            (some "PLACEMENT") [])
        | none => none
    let dels : List Fiber :=
      if sameType then []
      else
        match altNode with
        | some old => [old.withTag (some "DELETION")]
        | none => []
    if !first && prevNull then
      (dels, none)
    else
      match reconcileEls restEls olds.tail false newFiber.isNone with
      | (restDels, res) =>
        (dels ++ restDels,
         res.map (fun chain => newFiber.toList ++ chain))

/-- Embeds `reconcileChildren(wipFiberNode, elements)`: the old chain is
`wipFiberNode.alt == null ? null : wipFiberNode.alt.child`. -/
def reconcileChildren (elements : List (Option Element)) (alt : Option Fiber) :
    List Fiber × Option (List Fiber) :=
  let oldChain : List Fiber :=
    match alt with
    | none => []
    | some a => a.children
  reconcileEls elements oldChain true false

/-! ## The work-in-progress pointer as a zipper -/

/-- The context of one ancestor level of the travelling fiber pointer: the
parent fiber's own fields, the already-visited left siblings of the focus
(reversed), and its unvisited right siblings. -/
structure Crumb where
  ptype : Option ElType
  pprops : Props
  pchildEls : List (Option Element)
  pdom : Option Nat
  palt : Option Fiber
  ptag : Option String
  left : List Fiber
  right : List Fiber

/-- Re-assembles the parent fiber of a focused child. -/
def Crumb.fill (c : Crumb) (focus : Fiber) : Fiber :=
  .mk c.ptype c.pprops c.pchildEls c.pdom c.palt c.ptag
    (c.left.reverse ++ focus :: c.right)

/-- A position in the work-in-progress fiber tree: the focused fiber plus
the ancestor contexts up to the root (the source reaches these through
`parent` pointers). -/
structure Zipper where
  focus : Fiber
  crumbs : List Crumb

/-- The climbing loop of `getNext`: starting at the current node, return the
first non-null `sibling` found while walking `parent` pointers upward;
`none` once the parentless root is passed. -/
def goUpSibling : Fiber → List Crumb → Option Zipper
  | _, [] => none
  | f, c :: cs =>
    match c.right with
    | r :: rs => some ⟨r, { c with left := f :: c.left, right := rs } :: cs⟩
    | [] => goUpSibling (c.fill f) cs

/-- The crumb pushed when descending from a fiber to its first child. -/
def Fiber.asCrumb (f : Fiber) (right : List Fiber) : Crumb :=
  ⟨f.type, f.props, f.childEls, f.dom, f.alt, f.effectTag, [], right⟩

/-- Embeds `getNext(fiberNode)`: go to the child if one exists, else climb
parents looking for the first sibling, else `null`. -/
def getNext (z : Zipper) : Option Zipper :=
  match z.focus.children with
  | child :: rest => some ⟨child, z.focus.asCrumb rest :: z.crumbs⟩
  | [] => goUpSibling z.focus z.crumbs

/-- Zips all the way up, recovering the whole tree from a position. -/
def assembleRoot : Fiber → List Crumb → Fiber
  | f, [] => f
  | f, c :: cs => assembleRoot (c.fill f) cs

/-! ## The engine -/

/-- A failure of an engine run: either the model's step budget ran out
(`fuelOut`, never produced by the JavaScript itself), or the JavaScript
threw (`typeError`, e.g. the unguarded `prevSibling.sibling = newFiberNode`
on a null `prevSibling`). -/
inductive EngErr where
  | fuelOut
  | typeError (msg : String)
deriving DecidableEq, Repr

/-- The engine's global mutable state outside the travelling pointer: the
DOM arena, the `_flushedFiberRoot` committed tree, and the `_wipDeletions`
buffer.  Each recorded deletion keeps the dom id of its nearest
host-bearing old ancestor (the value `commitNode`'s
`while (domParentFiber.dom == null)` climb would find; see
`oldDomParentHint`). -/
structure EngineState where
  doms : DomArena
  flushed : Option Fiber
  wipDeletions : List (Fiber × Option Nat)

/-- Nearest host node among the old-generation ancestors recorded in the
zipper context (each crumb's `palt` is the previous generation of that
ancestor).  Deleted old fibers keep their `parent` references in the
source; at commit time `commitNode` climbs them with
`while (domParentFiber.dom == null) domParentFiber = domParentFiber.parent`.
Those old parents' `dom` fields no longer change once the fiber is pushed
onto `_wipDeletions`, so the climb's outcome can be precomputed here. -/
def climbAltDoms : List Crumb → Option Nat
  | [] => none
  | c :: cs =>
    match c.palt with
    | some pa =>
      match pa.dom with
      | some d => some d
      | none => climbAltDoms cs
    | none => climbAltDoms cs

/-- The dom id `commitNode` will use as `domParent` for a child of
`alt` deleted during reconciliation: the climb starts at the deleted
fiber's `parent`, which is `alt` itself. -/
def oldDomParentHint (alt : Option Fiber) (crumbs : List Crumb) : Option Nat :=
  match alt with
  | some a =>
    match a.dom with
    | some d => some d
    | none => climbAltDoms crumbs
  | none => none

/-- Embeds `performUnitOfWork(fiberNode)` for one fiber.
`isFunction(fiberNode.type)` dispatches between the two update paths.  A
component fiber runs `updateFunctionalComponent`: the hook context is
reset (`_wipFunctionalFiberNode = fiberNode; _hookIndex = 0;
fiberNode.hooks = []` — these globals are read only by `useState`, which
is modelled separately and is not invoked during the passes in scope, so
the reset touches nothing the engine state observes), the component is
applied once to its own props (yielding the `rendered` element its
reference carries), and the resulting one-element list is reconciled; no
host node is ever materialized for it.  Any other fiber runs
`updateVanillaComponent`: materialize the host node if absent
(`createDom`), then reconcile the children of `fiber.props.children`.
Returns the updated state, the zipper with the processed focus, and the
host calls made. -/
def performUnitOfWork (s : EngineState) (z : Zipper) :
    Except EngErr (EngineState × Zipper × List Mut) :=
  let f := z.focus
  match f.type with
  | some (.fn _ rendered) =>
    -- updateFunctionalComponent: `const children = [fiberNode.type(fiberNode.props)]`
    let (dels, res) := reconcileChildren [some rendered] f.alt
    let hint := oldDomParentHint f.alt z.crumbs
    let s₂ := { s with
      wipDeletions := s.wipDeletions ++ dels.map (fun df => (df, hint)) }
    match res with
    | none =>
      .error (.typeError "Cannot set properties of null (setting sibling)")
    | some children => .ok (s₂, ⟨f.withChildren children, z.crumbs⟩, [])
  | _ =>
    -- updateVanillaComponent
    let (s₁, f₁, muts) :=
      match f.dom with
      | none =>
        let (doms₁, d, ms) := createDom s.doms f.type f.props
        ({ s with doms := doms₁ }, f.withDom (some d), ms)
      | some _ => (s, f, ([] : List Mut))
    let (dels, res) := reconcileChildren f₁.childEls f₁.alt
    let hint := oldDomParentHint f₁.alt z.crumbs
    let s₂ := { s₁ with
      wipDeletions := s₁.wipDeletions ++ dels.map (fun df => (df, hint)) }
    match res with
    | none =>
      -- the unguarded `prevSibling.sibling = newFiberNode` threw; the pass
      -- dies here and nothing is ever committed (the state mutated so far,
      -- including the deletions already pushed, is never observed again)
      .error (.typeError "Cannot set properties of null (setting sibling)")
    | some children => .ok (s₂, ⟨f₁.withChildren children, z.crumbs⟩, muts)

/-- Embeds the `while (_nextWipFiberNode != null)` loop of `workLoop`, run
to completion (no deadline in the model: the deadline only decides where
the loop pauses, never what it computes).  Returns the state, the fully
built work-in-progress tree, and the host calls made during the pass. -/
def runLoop : Nat → EngineState → Zipper →
    Except EngErr (EngineState × Fiber × List Mut)
  | 0, _, _ => .error .fuelOut
  | fuel + 1, s, z =>
    match performUnitOfWork s z with
    | .error e => .error e
    | .ok (s₁, z₁, ms) =>
      match getNext z₁ with
      | some z₂ =>
        match runLoop fuel s₁ z₂ with
        | .ok (s₂, root, ms₂) => .ok (s₂, root, ms ++ ms₂)
        | .error e => .error e
      | none => .ok (s₁, assembleRoot z₁.focus z₁.crumbs, ms)

/-! ## Commit phase -/

/-- Call `domParent.removeChild(child)`: removing a node that is not a
child throws `NotFoundError` in the DOM. -/
def domRemoveChild (s : DomArena) (dp child : Nat) :
    Except EngErr (DomArena × List Mut) :=
  match s.get? dp with
  | none => .error (.typeError "removeChild on missing node")
  | some n =>
    if child ∈ n.children then
      .ok (applyMut s (.removeChild dp child), [.removeChild dp child])
    else .error (.typeError "NotFoundError: removeChild")

/-- Embeds `commitDeletion(fiber, domParent)`: remove the fiber's host node
if it has one, else recurse into `fiber.child` until one is found (the
source recurses without a null check, so running off the end of a childless
host-node-free fiber throws). -/
def commitDeletion : Nat → DomArena → Fiber → Nat →
    Except EngErr (DomArena × List Mut)
  | 0, _, _, _ => .error .fuelOut
  | fuel + 1, s, f, dp =>
    match f.dom with
    | some d => domRemoveChild s dp d
    | none =>
      match f.children with
      | [] => .error (.typeError "commitDeletion reached a null fiber")
      | c :: _ => commitDeletion fuel s c dp

/-- Embeds `commitNode(fiber)` of `src/react.js` over a sibling chain.
`dp` is the `domParent` the source's upward climb finds for the fibers of
this chain (their parent's nearest host-bearing ancestor); a fiber carrying
its own host node becomes the `domParent` of its children.  Branch order as
in the source: `PLACEMENT` with a host node appends it, `UPDATE` with a
host node applies the prop delta against `fiber.alt.props`, `DELETION`
delegates to `commitDeletion`, and any other tag does nothing; the child
and sibling chains are always visited. -/
def commitChain : Nat → DomArena → Nat → List Fiber →
    Except EngErr (DomArena × List Mut)
  | 0, _, _, _ => .error .fuelOut
  | _ + 1, s, _, [] => .ok (s, [])
  | fuel + 1, s, dp, f :: rest =>
    let effect : Except EngErr (DomArena × List Mut) :=
      if f.effectTag = some "PLACEMENT" && f.dom.isSome then
        match f.dom with
        | some d => .ok (applyMut s (.appendChild dp d), [.appendChild dp d])
        | none => .ok (s, [])
      else if f.effectTag = some "UPDATE" && f.dom.isSome then
        match f.dom, f.alt with
        | some d, some a => .ok (updateDom s d a.props f.props)
        | some _, none =>
          .error (.typeError "Cannot read properties of null (reading props)")
        | none, _ => .ok (s, [])
      else if f.effectTag = some "DELETION" then
        commitDeletion fuel s f dp
      else
        .ok (s, [])
    match effect with
    | .error e => .error e
    | .ok (s₁, ms₁) =>
      match commitChain fuel s₁ (f.dom.getD dp) f.children with
      | .error e => .error e
      | .ok (s₂, ms₂) =>
        match commitChain fuel s₂ dp rest with
        | .error e => .error e
        | .ok (s₃, ms₃) => .ok (s₃, ms₁ ++ ms₂ ++ ms₃)

/-- Commits the recorded deletions, `_wipDeletions.forEach(commitNode)`.
Each entry is committed like a one-fiber chain: its own effect (the
`DELETION` branch) followed by its child chain.  The source's `commitNode`
would additionally recurse into the deleted fiber's old `sibling` chain,
aliasing fibers the forEach visits again; no claim in scope commits a
nonempty deletion list, and that aliasing corner is left out of the
model. -/
def commitDeletions : Nat → DomArena → List (Fiber × Option Nat) →
    Except EngErr (DomArena × List Mut)
  | 0, _, _ => .error .fuelOut
  | _ + 1, s, [] => .ok (s, [])
  | fuel + 1, s, (f, hint) :: rest =>
    match hint with
    | none => .error (.typeError "null domParent for deletion")
    | some dp =>
      match commitChain fuel s dp [f] with
      | .error e => .error e
      | .ok (s₁, ms₁) =>
        match commitDeletions fuel s₁ rest with
        | .error e => .error e
        | .ok (s₂, ms₂) => .ok (s₂, ms₁ ++ ms₂)

/-- Embeds `commit()`: flush the deletion buffer, commit the tree below the
work-in-progress root, promote it to `_flushedFiberRoot` and clear the
work-in-progress pointer (`_wipDeletions` is notably not cleared here; only
`setState` resets it). -/
def commit (fuel : Nat) (s : EngineState) (wipRoot : Fiber) :
    Except EngErr (EngineState × List Mut) :=
  match commitDeletions fuel s.doms s.wipDeletions with
  | .error e => .error e
  | .ok (doms₁, ms₁) =>
    match wipRoot.dom with
    | none => .error (.typeError "root without host container")
    | some dp =>
      match commitChain fuel doms₁ dp wipRoot.children with
      | .error e => .error e
      | .ok (doms₂, ms₂) =>
        .ok ({ s with doms := doms₂, flushed := some wipRoot }, ms₁ ++ ms₂)

/-! ## Top-level drivers -/

/-- The initial DOM: only the mount container exists, as node 0. -/
def initialDoms : DomArena :=
  [{ isText := false, tag := "root-container", attrs := [], listeners := [],
     children := [] }]

/-- Embeds `render(reactElement, container)`: the fresh work-in-progress
root wraps the container and the single element,
`{ dom: container, props: { children: [reactElement] } }`, with no `alt`
(this `render` never links the previous committed root). -/
def render (e : Element) (container : Nat) : Zipper :=
  ⟨.mk none [] [some e] (some container) none none [], []⟩

/-- Embeds the root re-seeding performed by `setState`:
`{ dom: _flushedFiberRoot.dom, props: _flushedFiberRoot.props,
alt: _flushedFiberRoot }` becomes both `_wipFiberRoot` and
`_nextWipFiberNode` (the accompanying `_wipDeletions = []` reset is applied
by `runSecondPass`). -/
def rerenderRoot (flushed : Fiber) : Zipper :=
  ⟨.mk none flushed.props flushed.childEls flushed.dom (some flushed) none [],
   []⟩

/-- One complete pass: the work loop runs to completion, then `commit`
fires (the `if (_nextWipFiberNode == null && _wipFiberRoot != null)` arm of
`workLoop`).  Returns the final state, the committed tree, the pass's host
calls, and the commit's host calls. -/
def runPass (fuel : Nat) (s : EngineState) (z : Zipper) :
    Except EngErr (EngineState × Fiber × List Mut × List Mut) :=
  match runLoop fuel s z with
  | .error e => .error e
  | .ok (s₁, root, loopMuts) =>
    match commit fuel s₁ root with
    | .error e => .error e
    | .ok (s₂, commitMuts) => .ok (s₂, root, loopMuts, commitMuts)

/-- Mounts an element into an empty container: `render` followed by a full
pass and commit. -/
def mount (fuel : Nat) (e : Element) :
    Except EngErr (EngineState × Fiber × List Mut × List Mut) :=
  runPass fuel { doms := initialDoms, flushed := none, wipDeletions := [] }
    (render e 0)

/-- Mounts an element and then runs the second pass a `setState` with no
prop changes triggers: the new root carries the committed root's own props
and children and `alt` points at it, so the second pass presents the same
element tree as the committed one. -/
def runSecondPass (fuel : Nat) (e : Element) :
    Except EngErr (EngineState × Fiber × List Mut × List Mut) :=
  match mount fuel e with
  | .error e₁ => .error e₁
  | .ok (s₁, root₁, _, _) =>
    runPass fuel { s₁ with wipDeletions := [] } (rerenderRoot root₁)

/-! ## The earlier variant's `commitNode` (src/unnamed/part_001)

The earlier engine commits with a simpler `commitNode`: `domParent` is read
directly off `fiber.parent.dom` (no upward climb), `PLACEMENT` appends with
no null check, `DELETION` removes directly, `UPDATE` requires a host node,
and — unlike `src/react.js` — any other effect tag is reported with
`console.error("Illegal effect tag", ...)`. -/

/-- The host calls of `updateDom` as written in `src/unnamed/part_001`: its
remove-listeners filter is `isGone(nextProps)(key) || isNew(prevProps,
nextProps)` — the second disjunct misses the `(key)` application, so it is
the (always truthy) `isKeyNew` closure itself and every previous listener
is unregistered.  The other three sections match `src/react.js`. -/
def updateDomMutsV1 (d : Nat) (prevProps nextProps : Props) : List Mut :=
  (((jsKeys prevProps).filter isEvent).filter
      (fun key => isGoneKey nextProps key || true)).map
    (fun key => Mut.removeListener d (getEventType key)
      ((jsGet prevProps key).getD (.str "")))
  ++ (((jsKeys prevProps).filter isProperty).filter (isGoneKey nextProps)).map
    (fun key => Mut.deleteAttr d key)
  ++ (((jsKeys nextProps).filter isProperty).filter (isNewKey prevProps nextProps)).map
    (fun key => Mut.setAttr d key ((jsGet nextProps key).getD (.str "")))
  ++ (((jsKeys nextProps).filter isEvent).filter (isNewKey prevProps nextProps)).map
    (fun key => Mut.addListener d (getEventType key)
      ((jsGet nextProps key).getD (.str "")))

/-- Embeds `updateDom` of `src/unnamed/part_001`. -/
def updateDomV1 (s : DomArena) (d : Nat) (prevProps nextProps : Props) :
    DomArena × List Mut :=
  let muts := updateDomMutsV1 d prevProps nextProps
  (muts.foldl applyMut s, muts)

/-- Embeds `commitNode` of `src/unnamed/part_001` over a sibling chain.
`dp` is the parent fiber's `dom` field (possibly `undefined`); dereferencing
an `undefined` parent dom throws. -/
def commitChainV1 : Nat → DomArena → Option Nat → List Fiber →
    Except EngErr (DomArena × List Mut)
  | 0, _, _, _ => .error .fuelOut
  | _ + 1, s, _, [] => .ok (s, [])
  | fuel + 1, s, dp, f :: rest =>
    let effect : Except EngErr (DomArena × List Mut) :=
      if f.effectTag = some "PLACEMENT" then
        match dp, f.dom with
        | some p, some d => .ok (applyMut s (.appendChild p d), [.appendChild p d])
        | _, _ => .error (.typeError "appendChild on undefined")
      else if f.effectTag = some "DELETION" then
        match dp, f.dom with
        | some p, some d => domRemoveChild s p d
        | _, _ => .error (.typeError "removeChild on undefined")
      else if f.effectTag = some "UPDATE" && f.dom.isSome then
        match f.dom, f.alt with
        | some d, some a => .ok (updateDomV1 s d a.props f.props)
        | some _, none =>
          .error (.typeError "Cannot read properties of null (reading props)")
        | none, _ => .ok (s, [])
      else
        .ok (s, [.errorLog "Illegal effect tag"])
    match effect with
    | .error e => .error e
    | .ok (s₁, ms₁) =>
      match commitChainV1 fuel s₁ f.dom f.children with
      | .error e => .error e
      | .ok (s₂, ms₂) =>
        match commitChainV1 fuel s₂ dp rest with
        | .error e => .error e
        | .ok (s₃, ms₃) => .ok (s₃, ms₁ ++ ms₂ ++ ms₃)

/-! ## The module-level globals and the public `React` object -/

/-- The module-level mutable variables of `src/react.js`:
`_flushedFiberRoot`, `_wipFiberRoot`, `_nextWipFiberNode`, `_wipDeletions`,
`_wipFunctionalFiberNode` and `_hookIndex`, together with the browser DOM
they act on. -/
structure Globals where
  flushedFiberRoot : Option Fiber
  wipFiberRoot : Option Fiber
  nextWipFiberNode : Option Zipper
  wipDeletions : List (Fiber × Option Nat)
  wipFunctionalFiberNode : Option Fiber
  hookIndex : Option Nat
  doms : DomArena

/-- Embeds `function useEffect() {}`: declared with no parameters, its body
is empty, so whatever arguments a caller passes it returns `undefined`
(`none`) and reads or writes no global. -/
def useEffect (g : Globals) (_args : List Value) : Globals × Option Value :=
  (g, none)

/-- The shape of the public `React` module object. -/
structure ReactModule where
  createElement : ElType → Props → List JsChild → Element
  render : Element → Nat → Zipper
  useState : {α : Type} → Option (Option (List (Hook α))) → Nat → α → Hook α
  useEffect : Globals → List Value → Globals × Option Value

/-- Embeds `const React = { createElement, render, useState, useEffect }`. -/
def React : ReactModule :=
  { createElement := ReactJs.createElement
    render := ReactJs.render
    useState := fun {_} => ReactJs.useState
    useEffect := ReactJs.useEffect }

end ReactJs

namespace ReactJs

/-- The new single child element `A`. -/
def c5A : Element := .mk (.tag "p") [("id", .str "a")] []

/-- Committed child fiber `A` (host node 10). -/
def c5altA : Fiber :=
  .mk (some (.tag "p")) [("id", .str "a")] [] (some 10) none (some "UPDATE") []

/-- Committed child fiber `B` (host node 11). -/
def c5altB : Fiber := .mk (some (.tag "span")) [] [] (some 11) none (some "UPDATE") []

/-- Committed child fiber `C` (host node 12). -/
def c5altC : Fiber := .mk (some (.tag "b")) [] [] (some 12) none (some "UPDATE") []

/-- The committed parent fiber with children `[A, B, C]`. -/
def c5parentAlt : Fiber :=
  .mk (some (.tag "div")) [] [] (some 9) none none [c5altA, c5altB, c5altC]

/-- The work-in-progress parent presenting new element list `[A]`. -/
def c5wip : Fiber :=
  .mk (some (.tag "div")) [] [some c5A] (some 9) (some c5parentAlt) (some "UPDATE") []

/-- An engine state for the C5 run (its contents are irrelevant: the crash
happens inside `reconcileChildren` before any of it is consulted). -/
def c5state : EngineState := { doms := [], flushed := none, wipDeletions := [] }

/-- The new single child element for the C2 run. -/
def c2A : Element := .mk (.tag "p") [] []

/-- Committed child fibers `A`, `B`, `C`, `D` (host nodes 20-23). -/
def c2altA : Fiber := .mk (some (.tag "p")) [] [] (some 20) none (some "UPDATE") []

/-- Committed child fiber `B`. -/
def c2altB : Fiber := .mk (some (.tag "span")) [] [] (some 21) none (some "UPDATE") []

/-- Committed child fiber `C`. -/
def c2altC : Fiber := .mk (some (.tag "b")) [] [] (some 22) none (some "UPDATE") []

/-- Committed child fiber `D`. -/
def c2altD : Fiber := .mk (some (.tag "i")) [] [] (some 23) none (some "UPDATE") []

/-- The committed parent fiber with children `[A, B, C, D]`. -/
def c2parentAlt : Fiber :=
  .mk (some (.tag "div")) [] [] (some 19) none none [c2altA, c2altB, c2altC, c2altD]

/-- First element of the C7 run. -/
def c7A : Element := .mk (.tag "h1") [] []

/-- Last element of the C7 run. -/
def c7B : Element := .mk (.tag "h2") [] []

/-- The `PLACEMENT` child of the ill-tagged fiber. -/
def c8child : Fiber := .mk (some (.tag "span")) [] [] (some 2) none (some "PLACEMENT") []

/-- A fiber whose effect tag matches no commit branch. -/
def c8fBogus : Fiber :=
  .mk (some (.tag "div")) [] [] (some 1) none (some "REPLACEMENT") [c8child]

/-- The DOM for the C8 runs: container (0) holding the ill-tagged fiber's
node (1), plus the child's detached node (2). -/
def c8doms : DomArena :=
  [{ isText := false, tag := "root-container", attrs := [], listeners := [],
     children := [1] },
   { isText := false, tag := "div", attrs := [], listeners := [], children := [] },
   { isText := false, tag := "span", attrs := [], listeners := [], children := [] }]

/-- The DOM after committing `c8fBogus`: only the child's placement landed. -/
def c8domsAfter : DomArena :=
  [{ isText := false, tag := "root-container", attrs := [], listeners := [],
     children := [1] },
   { isText := false, tag := "div", attrs := [], listeners := [], children := [2] },
   { isText := false, tag := "span", attrs := [], listeners := [], children := [] }]



/-! ## C6: `getNext` drives a pre-order traversal

Fibers are identified by their tree position: the path of child indices
from the root.  A fueled `traverse` records the positions the work loop's
pointer visits; `preorderPaths` enumerates the tree's positions in
pre-order. -/

/-- A tree position: child indices from the root. -/
abbrev Path := List Nat

/-- The position of a zipper's focus: each crumb contributes the focus's
index among its siblings (the number of left siblings). -/
def pathOfCrumbs (cs : List Crumb) : Path :=
  (cs.map (fun c => c.left.length)).reverse

/-- The position of the focused fiber. -/
def Zipper.path (z : Zipper) : Path := pathOfCrumbs z.crumbs

/-- The positions visited by iterating `getNext` from a position, recorded
while fuel lasts. -/
def traverse : Nat → Zipper → List Path
  | 0, _ => []
  | fuel + 1, z =>
    z.path ::
      (match getNext z with
       | none => []
       | some z₂ => traverse fuel z₂)

/-- Iterates `getNext` a given number of times (`none` once the pointer has
run off the root). -/
def iterNext : Nat → Zipper → Option Zipper
  | 0, z => some z
  | k + 1, z =>
    match getNext z with
    | none => none
    | some z₂ => iterNext k z₂

mutual
/-- Pre-order enumeration of the positions of a fiber tree rooted at
position `p`: the node itself, then its children's subtrees left to
right. -/
def preorderPaths (p : Path) (t : Fiber) : List Path :=
  match t with
  | .mk _ _ _ _ _ _ cs => p :: preorderSibs p 0 cs

/-- Pre-order enumeration of a forest of siblings, the first one sitting at
child index `i` of position `p`. -/
def preorderSibs (p : Path) (i : Nat) : List Fiber → List Path
  | [] => []
  | c :: rest => preorderPaths (p ++ [i]) c ++ preorderSibs p (i + 1) rest
end

mutual
/-- Number of fibers in a tree (the number of work-loop steps a pass over
it takes). -/
def countF : Fiber → Nat
  | .mk _ _ _ _ _ _ cs => 1 + countL cs

/-- Number of fibers in a forest. -/
def countL : List Fiber → Nat
  | [] => 0
  | c :: rest => countF c + countL rest
end



/-! ## Well-formedness, build specification and isomorphism checkers

`wfChk` is the fueled well-formedness test for the element trees the
whole-engine claims quantify over: props objects have unique keys (as any
JavaScript object literal does), no two event props collide on the exact
same (event type, handler) registration, text elements are childless, and
no child slot is `null` (a `null` slot crashes the reconciler, see C7).
For a component element only its rendered output is constrained: the
engine never applies the component's own props to a host node and never
reconciles its `children` entry (`updateFunctionalComponent` reconciles
the one-element list the component returns instead).
`buildFresh` is the functional mirror of what one fresh-mount pass builds
for one element subtree: the fiber (one work-loop fiber per element, host
nodes allocated in pre-order for the non-component elements), the
allocated host nodes (detached, props applied), and the host calls made.
`isoChk` checks the structural isomorphism of a host subtree with an
element tree, where a component element is isomorphic to whatever its
rendered output is isomorphic to. -/

/-- Fueled well-formedness of an element tree (conservatively false when
fuel runs out). -/
def wfChk : Nat → Element → Bool
  | 0, _ => false
  | fuel + 1, .mk (.tag t) p cs =>
    decide (jsKeys p).Nodup
    && decide ((p.filter (fun kv => isEvent kv.1)).map
        (fun kv => (getEventType kv.1, kv.2))).Nodup
    && (if t = "TEXT_ELEMENT" then cs.isEmpty else true)
    && cs.all (fun c =>
        match c with
        | none => false
        | some e => wfChk fuel e)
  | fuel + 1, .mk (.fn _ rendered) _ _ => wfChk fuel rendered

/-- A well-formed element tree: some fuel suffices to check it. -/
def WfEl (e : Element) : Prop := ∃ n, wfChk n e = true

/-- The fiber `reconcileChildren` creates for a fresh (no previous
generation) element: a `PLACEMENT` fiber with no host node. -/
def shellOf (e : Element) : Fiber :=
  .mk (some e.type) e.props e.children none none (some "PLACEMENT") []

/-- The host node `createDom` materializes for a fiber of the given type
and props, before any children are attached. -/
def mkFreshNode (t : String) (p : Props) : DomNode :=
  if t = "TEXT_ELEMENT" then
    { isText := true, tag := "",
      attrs := p.filter (fun kv => isProperty kv.1),
      listeners := (p.filter (fun kv => isEvent kv.1)).map
        (fun kv => (getEventType kv.1, kv.2)),
      children := [] }
  else
    { isText := false, tag := t,
      attrs := p.filter (fun kv => isProperty kv.1),
      listeners := (p.filter (fun kv => isEvent kv.1)).map
        (fun kv => (getEventType kv.1, kv.2)),
      children := [] }

mutual
/-- Number of fibers a pass creates for an element subtree: one per
element, a component adding its rendered subtree below itself. -/
def countE : Element → Nat
  | .mk (.tag _) _ cs => 1 + countEL cs
  | .mk (.fn _ rendered) _ _ => 1 + countE rendered

/-- Number of fibers a pass creates for a list of child slots. -/
def countEL : List (Option Element) → Nat
  | [] => 0
  | none :: rest => countEL rest
  | some e :: rest => countE e + countEL rest
end

mutual
/-- Number of host nodes a fresh pass allocates for an element subtree:
one per non-component element (a component fiber carries no host node of
its own, only its rendered output allocates). -/
def countN : Element → Nat
  | .mk (.tag _) _ cs => 1 + countNL cs
  | .mk (.fn _ rendered) _ _ => countN rendered

/-- Number of host nodes a fresh pass allocates for a list of child
slots. -/
def countNL : List (Option Element) → Nat
  | [] => 0
  | none :: rest => countNL rest
  | some e :: rest => countN e + countNL rest
end

mutual
/-- Functional mirror of a fresh-mount pass over one element subtree,
allocating host node ids from `base` in pre-order: the fully processed
fiber, the allocated (still detached) host nodes, and the host calls
made while applying props. -/
def buildFresh (base : Nat) (e : Element) : Fiber × List DomNode × List Mut :=
  match e with
  | .mk (.tag t) p cs =>
    match buildFreshL (base + 1) cs with
    | (children, ns, ms) =>
      (.mk (some (.tag t)) p cs (some base) none (some "PLACEMENT") children,
       mkFreshNode t p :: ns,
       updateDomMuts base [] p ++ ms)
  | .mk (.fn i rendered) p cs =>
    match buildFresh base rendered with
    | (child, ns, ms) =>
      (.mk (some (.fn i rendered)) p cs none none (some "PLACEMENT") [child],
       ns, ms)

/-- `buildFresh` over a list of child slots (`null` slots are skipped;
under `wfChk` they do not occur). -/
def buildFreshL (base : Nat) (els : List (Option Element)) :
    List Fiber × List DomNode × List Mut :=
  match els with
  | [] => ([], [], [])
  | none :: rest => buildFreshL base rest
  | some e :: rest =>
    match buildFresh base e with
    | (f, ns, ms) =>
      match buildFreshL (base + ns.length) rest with
      | (fs, ns₂, ms₂) => (f :: fs, ns ++ ns₂, ms ++ ms₂)
end

mutual
/-- The host mutations the commit phase performs for a freshly built
subtree rooted at host id `base` under `dp`: append the root, then each
child subtree in pre-order. -/
def commitMutsFresh (dp base : Nat) (e : Element) : List Mut :=
  match e with
  | .mk (.tag _) _ cs =>
    .appendChild dp base :: commitMutsFreshL base (base + 1) cs
  | .mk (.fn _ rendered) _ _ => commitMutsFresh dp base rendered

/-- `commitMutsFresh` over a list of child slots. -/
def commitMutsFreshL (dp base : Nat) : List (Option Element) → List Mut
  | [] => []
  | none :: rest => commitMutsFreshL dp base rest
  | some e :: rest =>
    commitMutsFresh dp base e ++ commitMutsFreshL dp (base + countN e) rest
end

/-- The host ids of the subtree roots a child-slot list occupies when laid
out in pre-order from `base`. -/
def wiredRootIds (base : Nat) : List (Option Element) → List Nat
  | [] => []
  | none :: rest => wiredRootIds base rest
  | some e :: rest => base :: wiredRootIds (base + countN e) rest

mutual
/-- The host nodes of a freshly committed subtree: the `buildFresh` nodes
with the parent/child wiring the commit's `appendChild` calls added.  A
component contributes exactly the wired nodes of its rendered output. -/
def wiredFresh (base : Nat) (e : Element) : List DomNode :=
  match e with
  | .mk (.tag t) p cs =>
    { mkFreshNode t p with children := wiredRootIds (base + 1) cs }
      :: wiredFreshL (base + 1) cs
  | .mk (.fn _ rendered) _ _ => wiredFresh base rendered

/-- `wiredFresh` over a list of child slots. -/
def wiredFreshL (base : Nat) : List (Option Element) → List DomNode
  | [] => []
  | none :: rest => wiredFreshL base rest
  | some e :: rest => wiredFresh base e ++ wiredFreshL (base + countN e) rest
end

/-- Fueled isomorphism test between the host subtree rooted at node `d`
and an element tree: matching tag (a text node for `"TEXT_ELEMENT"`), the
element's plain props as node properties, its event props as listeners,
and pairwise isomorphic children. -/
def isoChk : Nat → DomArena → Nat → Element → Bool
  | 0, _, _, _ => false
  | fuel + 1, s, d, .mk (.fn _ rendered) _ _ => isoChk fuel s d rendered
  | fuel + 1, s, d, .mk (.tag t) p cs =>
    match s.get? d with
    | none => false
    | some node =>
      decide (node.attrs = p.filter (fun kv => isProperty kv.1))
      && decide (node.listeners
          = (p.filter (fun kv => isEvent kv.1)).map
            (fun kv => (getEventType kv.1, kv.2)))
      && (if t = "TEXT_ELEMENT" then
            node.isText && node.children.isEmpty
          else
            !node.isText && decide (node.tag = t)
            && decide (node.children.length = cs.length)
            && (node.children.zip cs).all (fun pr =>
                match pr.2 with
                | some ce => isoChk fuel s pr.1 ce
                | none => false))

/-- Appends a result prefix to the host-call log of a loop run. -/
def prependMuts (ms : List Mut)
    (r : Except EngErr (EngineState × Fiber × List Mut)) :
    Except EngErr (EngineState × Fiber × List Mut) :=
  match r with
  | .ok (s, f, ms₂) => .ok (s, f, ms ++ ms₂)
  | .error err => .error err

/-- The element `<div id="foo"><h1>Hello</h1></div>` of the end-to-end
scenario, as `createElement` builds it. -/
def elHello : Element :=
  createElement (.tag "div") [("id", .str "foo")]
    [.elem (createElement (.tag "h1") [] [.str "Hello"])]

/-- A component-bearing element: a component function (reference identity
0) whose body renders `elHello`, mounted with empty props. -/
def elComp : Element := .mk (.fn 0 elHello) [] []

/-! ## Structural well-formedness and the loop continuations -/

mutual
/-- The structural invariant behind `wfChk`: unique prop keys, unique
(event type, handler) registrations, childless text elements and no `null`
child slots. -/
def WfR : Element → Prop
  | .mk (.tag t) p cs =>
    (jsKeys p).Nodup
    ∧ ((p.filter (fun kv => isEvent kv.1)).map
        (fun kv => (getEventType kv.1, kv.2))).Nodup
    ∧ (t = "TEXT_ELEMENT" → cs = [])
    ∧ WfRL cs
  | .mk (.fn _ rendered) _ _ => WfR rendered

/-- `WfR` over a child-slot list (`null` slots are ruled out). -/
def WfRL : List (Option Element) → Prop
  | [] => True
  | none :: _ => False
  | some e :: rest => WfR e ∧ WfRL rest
end

/-- The child chain a fresh reconciliation produces: one `PLACEMENT` shell
per element slot. -/
def shellsL : List (Option Element) → List Fiber
  | [] => []
  | none :: rest => shellsL rest
  | some e :: rest => shellOf e :: shellsL rest

/-- The run of the work loop after the fiber `f` has just been fully
processed in context `cs`: climb to the next pending sibling and continue,
or finish with the assembled tree. -/
def runFrom (fuel : Nat) (s : EngineState) (f : Fiber) (cs : List Crumb) :
    Except EngErr (EngineState × Fiber × List Mut) :=
  match goUpSibling f cs with
  | none => .ok (s, assembleRoot f cs, [])
  | some z₂ => runLoop fuel s z₂

/-- The run of the work loop after one unit of work produced the zipper
`z`: advance the pointer and continue, or finish with the assembled tree. -/
def contLoop (fuel : Nat) (s : EngineState) (z : Zipper) :
    Except EngErr (EngineState × Fiber × List Mut) :=
  match getNext z with
  | none => .ok (s, assembleRoot z.focus z.crumbs, [])
  | some z₂ => runLoop fuel s z₂

/-! ## The second (identical) pass's functional mirrors -/

/-- The `UPDATE` fiber the second pass's reconciliation creates for an
element whose previous generation is the fresh-mount fiber laid out at
`base`: it reuses that fiber's `dom` (the host id `base` itself for a
non-component element, `none` for a component). -/
def updShellOf (base : Nat) (e : Element) : Fiber :=
  .mk (some e.type) e.props e.children (buildFresh base e).1.dom
    (some (buildFresh base e).1) (some "UPDATE") []

/-- `updShellOf` over a child-slot list, host ids laid out as the fresh
mount allocated them. -/
def updShellsL (base : Nat) : List (Option Element) → List Fiber
  | [] => []
  | none :: rest => updShellsL base rest
  | some e :: rest => updShellOf base e :: updShellsL (base + countN e) rest

mutual
/-- The fully processed fiber of the second (identical) pass for one
element subtree: an `UPDATE` fiber reusing host id `base`, its previous
generation the fresh-mount fiber there. -/
def updFresh (base : Nat) (e : Element) : Fiber :=
  match e with
  | .mk (.tag t) p cs =>
    .mk (some (.tag t)) p cs (some base)
      (some (buildFresh base (.mk (.tag t) p cs)).1)
      (some "UPDATE") (updFreshL (base + 1) cs)
  | .mk (.fn i rendered) p cs =>
    .mk (some (.fn i rendered)) p cs none
      (some (buildFresh base (.mk (.fn i rendered) p cs)).1)
      (some "UPDATE") [updFresh base rendered]

/-- `updFresh` over a child-slot list. -/
def updFreshL (base : Nat) : List (Option Element) → List Fiber
  | [] => []
  | none :: rest => updFreshL base rest
  | some e :: rest => updFresh base e :: updFreshL (base + countN e) rest
end

/-- Fueled check that every fiber of a tree carries the `"UPDATE"` effect
tag. -/
def allUpdChk : Nat → Fiber → Bool
  | 0, _ => false
  | fuel + 1, f =>
    decide (f.effectTag = some "UPDATE")
      && f.children.all (fun c => allUpdChk fuel c)

/-! ## The committed results of the two passes -/

/-- The work-in-progress root a fresh mount assembles and commits. -/
def rootFiberOf (e : Element) : Fiber :=
  .mk none [] [some e] (some 0) none none [(buildFresh 1 e).1]

/-- The mount container after the first commit: its single child is host
node 1, the root of the freshly built tree. -/
def containerAfterMount : DomNode :=
  { isText := false, tag := "root-container", attrs := [], listeners := [],
    children := [1] }

/-- The whole arena after a fresh mount commits. -/
def mountedDoms (e : Element) : DomArena :=
  containerAfterMount :: wiredFresh 1 e

/-- The root the second (identical) pass assembles and commits. -/
def root2FiberOf (e : Element) : Fiber :=
  .mk none [] [some e] (some 0) (some (rootFiberOf e)) none [updFresh 1 e]

/-! # Claim theorems -/

/-! ## C10: `createElement` child normalization -/

/-- C10: `createElement` normalizes a child into a text element exactly when
the child is not of object type — a string or number child `c` becomes
`{ type: "TEXT_ELEMENT", props: { nodeValue: c, children: [] } }` — while a
`null` child, being of object type, is kept as a literal `null` entry of
the children array (same position, neither wrapped nor dropped), and an
element child is kept as itself. -/
theorem c10_createElement_child_normalization :
    (∀ (t : ElType) (p : Props) (cs : List JsChild),
      (createElement t p cs).children
        = cs.map (fun c =>
            match c with
            | .str s => some (Element.mk (.tag "TEXT_ELEMENT") [("nodeValue", Value.str s)] [])
            | .num n => some (Element.mk (.tag "TEXT_ELEMENT") [("nodeValue", Value.num n)] [])
            | .elem e => some e
            | .null => none))
    ∧ (∀ c : JsChild,
        isObject c = true ↔ c = JsChild.null ∨ ∃ e, c = JsChild.elem e) := by
  constructor
  · intro t p cs
    show List.map _ cs = List.map _ cs
    congr 1
    funext c
    cases c <;> rfl
  · intro c
    cases c <;> simp [isObject]

end ReactJs

namespace ReactJs

/-! ## C3: `useState` folds the carried-over action queue -/

/-- C3: for a component fiber with a previous-generation hook cell at the
same index, `useState(initial)` returns as current value the left fold of
that old cell's pending actions, in enqueue order, over the old cell's
committed value, and returns `initial` when no previous generation or
matching cell exists; the freshly installed cell always starts with an
empty queue.  In particular two `dispatch` calls `(c => c + 1)` then
`(c => c * 2)` issued before the next pass begins, starting from committed
value `3`, yield `8` on the next pass. -/
theorem c3_useState_folds_pending_actions :
    (∀ (α : Type) (altHooks : Option (Option (List (Hook α)))) (i : Nat)
      (initial : α),
      (useState altHooks i initial).state
        = (match
            (match altHooks with
             | some (some hooks) => hooks.get? i
             | _ => none) with
           | some oldHook =>
             oldHook.queue.foldl (fun st action => action st) oldHook.state
           | none => initial)
      ∧ (useState altHooks i initial).queue = [])
    ∧ (useState (α := Int)
        (some (some [dispatch (dispatch ⟨3, []⟩ (fun c => c + 1))
          (fun c => c * 2)]))
        0 0).state = 8 := by
  constructor
  · intro α altHooks i initial
    cases altHooks with
    | none => exact ⟨rfl, rfl⟩
    | some inner =>
      cases inner with
      | none => exact ⟨rfl, rfl⟩
      | some hooks =>
        constructor
        · simp only [useState]
          cases hooks.get? i
          · rfl
          · rfl
        · rfl
  · rfl

/-! ## C9: `useEffect` is a pure no-op -/

/-- C9: `useEffect` is a pure no-op: for every global state and every
argument list it returns `undefined` and leaves every module-level variable
(the committed root, the work-in-progress root, the pending-fiber pointer,
the pending-deletions list, the hook context and the DOM) unchanged, even
though it is exported on the public `React` module alongside `useState`. -/
theorem c9_useEffect_is_pure_noop :
    (∀ (g : Globals) (args : List Value), useEffect g args = (g, none))
    ∧ React.useEffect = useEffect
    ∧ (∀ (α : Type),
        React.useState (α := α)
          = (useState : Option (Option (List (Hook α))) → Nat → α → Hook α)) := by
  exact ⟨fun g args => rfl, rfl, fun α => rfl⟩


end ReactJs

namespace ReactJs

/-! ## C5: the claimed deletion scenario crashes before commit

Evaluation fixtures: a parent whose committed children are `[A, B, C]`
(a `p`, a `span` and a `b`, with host nodes 10, 11, 12) re-rendered with
the single-element list `[A]`. -/

/-- C5: the claim requires that with previously committed children
`[A, B, C]` and new element list `[A]`, commit removes exactly B's and C's
host nodes and does not touch A's.  The code never gets there: after
tagging and pushing B and C for deletion, the third loop iteration executes
`prevSibling.sibling = newFiberNode` with `prevSibling === null` (the
second iteration produced no new fiber) and throws a TypeError, so the pass
dies inside `reconcileChildren`, `commit` never runs, and no host node is
removed at all. -/
theorem c5_deletion_scenario_crashes_before_commit :
    reconcileChildren [some c5A] (some c5parentAlt)
      = ([.mk (some (.tag "span")) [] [] (some 11) none (some "DELETION") [],
          .mk (some (.tag "b")) [] [] (some 12) none (some "DELETION") []],
         none)
    ∧ performUnitOfWork c5state ⟨c5wip, []⟩
      = .error (.typeError "Cannot set properties of null (setting sibling)") :=
  ⟨rfl, rfl⟩

/-! ## C2: positions past the crash are never reconciled

Evaluation fixtures: committed children `[A, B, C, D]` re-rendered with the
single-element list `[A]`.  The claim requires the old fiber at position 3
(`D`) to be tagged `Delete` and appended to the pending-deletions list. -/

/-- C2: the claim describes `reconcileChildren` as performing, at *every*
position `i`, the same-kind/create/delete classification.  At position 3 of
this run an old fiber (`D`) exists and no element does, so the claim
requires `D` to be tagged `Delete` and appended to the pending-deletions
list.  Instead the loop throws a TypeError while linking position 2 (the
unguarded `prevSibling.sibling = newFiberNode` with a null `prevSibling`),
`D` is never visited: the deletions list holds exactly the `B` and `C`
fibers, no pushed deletion has `D`'s type, and the reconciliation reports
the crash instead of a child chain. -/
theorem c2_position_past_crash_never_reconciled :
    reconcileChildren [some c2A] (some c2parentAlt)
      = ([.mk (some (.tag "span")) [] [] (some 21) none (some "DELETION") [],
          .mk (some (.tag "b")) [] [] (some 22) none (some "DELETION") []],
         none)
    ∧ ∀ f ∈ (reconcileChildren [some c2A] (some c2parentAlt)).1,
        f.type ≠ some (.tag "i") := by
  refine ⟨rfl, ?_⟩
  intro f hf
  have : (reconcileChildren [some c2A] (some c2parentAlt)).1
      = [Fiber.mk (some (.tag "span")) [] [] (some 21) none (some "DELETION") [],
         Fiber.mk (some (.tag "b")) [] [] (some 22) none (some "DELETION") []] := rfl
  rw [this] at hf
  simp only [List.mem_cons, List.not_mem_nil, or_false] at hf
  rcases hf with h | h <;> subst h <;> simp [Fiber.type]

/-! ## C7: a null element slot crashes the loop

Evaluation fixtures: a fresh mount (no old chain at all) whose element list
is `[A, null, B]`. -/

/-- C7: the claim states that every element list containing `null` entries
is legal input on which `reconcileChildren` completes without error.  On
the fresh-mount list `[A, null, B]` the iteration after the `null` slot
executes `prevSibling.sibling = newFiberNode` with `prevSibling === null`
and throws a TypeError: no child chain is produced (so `B` is never wired),
and since there are no old fibers the deletions list stays empty. -/
theorem c7_null_slot_crashes_reconcile :
    reconcileChildren [some c7A, none, some c7B] none = ([], none) :=
  rfl

/-! ## C8: an unrecognized effect tag at commit

Evaluation fixtures: a fiber with effect tag `"REPLACEMENT"` (none of
`PLACEMENT`/`UPDATE`/`DELETION`/`none`) sitting under the container (node
0) with host node 1, carrying one `PLACEMENT` child with host node 2. -/

/-- C8 counterexample: the claim says a fiber reaching commit with an
effect tag that is none of Create/Update/Delete/None makes commit surface
the violation loudly.  Committing `c8fBogus` through `commitNode` of
`src/react.js` succeeds silently: no thrown error, and the emitted host
calls contain no error signal of any kind — only the child's placement. -/
theorem c8_unknown_tag_commits_silently :
    commitChain 10 c8doms 0 [c8fBogus]
      = .ok (c8domsAfter, [Mut.appendChild 1 2])
    ∧ ∀ msg, Mut.errorLog msg ∉ [Mut.appendChild 1 2] := by
  refine ⟨rfl, ?_⟩
  intro msg h
  simp at h

/-- C8 amended: in `src/react.js` a fiber whose effect tag matches no
branch is silently skipped by `commitNode` — the commit succeeds, no error
signal is produced, and the fiber's child and sibling chains are still
visited (here the child's placement still lands) — whereas the earlier
variant in `src/unnamed/part_001` reports `"Illegal effect tag"` via
`console.error` before visiting the children. -/
theorem c8_amended_main_silent_variant_loud :
    commitChain 10 c8doms 0 [c8fBogus]
      = .ok (c8domsAfter, [Mut.appendChild 1 2])
    ∧ commitChainV1 10 c8doms (some 0) [c8fBogus]
      = .ok (c8domsAfter,
          [Mut.errorLog "Illegal effect tag", Mut.appendChild 1 2]) :=
  ⟨rfl, rfl⟩

end ReactJs



namespace ReactJs

/-! ## C6 development: traversal lemmas -/

/-- Splitting an iteration of `getNext` into two stages. -/
theorem iterNext_add (a b : Nat) (z : Zipper) :
    iterNext (a + b) z
      = (match iterNext a z with
         | none => none
         | some z₂ => iterNext b z₂) := by
  induction a generalizing z with
  | zero => simp [iterNext]
  | succ a ih =>
    have h : a + 1 + b = (a + b) + 1 := by omega
    rw [h]
    cases hgz : getNext z with
    | none => simp [iterNext, hgz]
    | some z₂ => simp [iterNext, hgz, ih z₂]

/-- Descending into the first child and refilling restores the fiber. -/
theorem fill_asCrumb (ty : Option ElType) (pr : Props)
    (ce : List (Option Element)) (d : Option Nat) (a : Option Fiber)
    (tag : Option String) (c : Fiber) (rest : List Fiber) :
    (Fiber.asCrumb (.mk ty pr ce d a tag (c :: rest)) rest).fill c
      = .mk ty pr ce d a tag (c :: rest) := by
  simp [Fiber.asCrumb, Crumb.fill, Fiber.type, Fiber.props, Fiber.childEls,
    Fiber.dom, Fiber.alt, Fiber.effectTag]

/-- Moving to the next sibling does not change the parent the crumb
refills. -/
theorem fill_shift (c0 : Crumb) (t r : Fiber) (rs : List Fiber)
    (h : c0.right = r :: rs) :
    ({ c0 with left := t :: c0.left, right := rs } : Crumb).fill r
      = c0.fill t := by
  simp [Crumb.fill, h]

/-- The path of an extended context. -/
theorem pathOfCrumbs_cons (c : Crumb) (cs : List Crumb) :
    pathOfCrumbs (c :: cs) = pathOfCrumbs cs ++ [c.left.length] := by
  simp [pathOfCrumbs]

/-- The climb moves to the focus's next sibling when it has one. -/
theorem goUpSibling_sib (f : Fiber) (c : Crumb) (cs : List Crumb)
    (r : Fiber) (rs : List Fiber) (h : c.right = r :: rs) :
    goUpSibling f (c :: cs)
      = some ⟨r, { c with left := f :: c.left, right := rs } :: cs⟩ := by
  rw [goUpSibling, h]

/-- The climb steps to the parent when the focus has no next sibling. -/
theorem goUpSibling_up (f : Fiber) (c : Crumb) (cs : List Crumb)
    (h : c.right = []) :
    goUpSibling f (c :: cs) = goUpSibling (c.fill f) cs := by
  rw [goUpSibling, h]

/-- One `getNext` step from a childless focus climbs. -/
theorem getNext_leaf (f : Fiber) (cs : List Crumb) (h : f.children = []) :
    getNext ⟨f, cs⟩ = goUpSibling f cs := by
  rw [getNext, h]

/-- One `getNext` step from a fiber with children descends to the first
child. -/
theorem getNext_child (f : Fiber) (cs : List Crumb) (c : Fiber)
    (rest : List Fiber) (h : f.children = c :: rest) :
    getNext ⟨f, cs⟩ = some ⟨c, f.asCrumb rest :: cs⟩ := by
  rw [getNext, h]

/-- One step of the sibling-or-climb continuation: assuming the traversal
property for the next sibling (the induction hypothesis `ih`), one level of
the climbing loop is absorbed. -/
theorem iterUpStep (t : Fiber) (c0 : Crumb) (cs : List Crumb)
    (ih : ∀ (r : Fiber) (rs : List Fiber), c0.right = r :: rs →
      iterNext (countF r
          + countL (({ c0 with left := t :: c0.left, right := rs } : Crumb)).right)
        ⟨r, { c0 with left := t :: c0.left, right := rs } :: cs⟩
        = goUpSibling
            (({ c0 with left := t :: c0.left, right := rs } : Crumb).fill r) cs) :
    (match goUpSibling t (c0 :: cs) with
     | none => (none : Option Zipper)
     | some z₂ => iterNext (countL c0.right) z₂)
      = goUpSibling (c0.fill t) cs := by
  cases hr : c0.right with
  | nil =>
    rw [goUpSibling_up _ _ _ hr]
    cases goUpSibling (c0.fill t) cs <;> simp [countL, iterNext]
  | cons r rs =>
    rw [goUpSibling_sib t c0 cs r rs hr]
    show iterNext (countL (r :: rs)) _ = _
    rw [show countL (r :: rs) = countF r + countL rs from by simp [countL]]
    have h3 := ih r rs hr
    rw [fill_shift c0 t r rs hr] at h3
    exact h3

/-- The emission analogue of `iterUpStep`: one level of the climbing loop,
for the visited-path list. -/
theorem travUpStep (t : Fiber) (c0 : Crumb) (cs : List Crumb) (fuel : Nat)
    (ih : ∀ (r : Fiber) (rs : List Fiber), c0.right = r :: rs →
      traverse (countF r
          + countL (({ c0 with left := t :: c0.left, right := rs } : Crumb)).right
          + fuel)
        ⟨r, { c0 with left := t :: c0.left, right := rs } :: cs⟩
        = preorderPaths
            (pathOfCrumbs (({ c0 with left := t :: c0.left, right := rs } : Crumb)
              :: cs)) r
          ++ preorderSibs (pathOfCrumbs cs)
            ((({ c0 with left := t :: c0.left, right := rs } : Crumb)).left.length
              + 1)
            (({ c0 with left := t :: c0.left, right := rs } : Crumb)).right
          ++ (match goUpSibling
                (({ c0 with left := t :: c0.left, right := rs } : Crumb).fill r)
                cs with
              | none => []
              | some z₂ => traverse fuel z₂)) :
    (match goUpSibling t (c0 :: cs) with
     | none => ([] : List Path)
     | some z₂ => traverse (countL c0.right + fuel) z₂)
      = preorderSibs (pathOfCrumbs cs) (c0.left.length + 1) c0.right
        ++ (match goUpSibling (c0.fill t) cs with
            | none => []
            | some z₂ => traverse fuel z₂) := by
  cases hr : c0.right with
  | nil =>
    rw [goUpSibling_up _ _ _ hr]
    rw [show countL [] = 0 from by simp [countL]]
    rw [show preorderSibs (pathOfCrumbs cs) (c0.left.length + 1) ([] : List Fiber)
        = [] from by simp [preorderSibs]]
    try simp
  | cons r rs =>
    rw [goUpSibling_sib t c0 cs r rs hr]
    show traverse (countL (r :: rs) + fuel) _ = _
    rw [show countL (r :: rs) = countF r + countL rs from by simp [countL]]
    have h3 := ih r rs hr
    rw [fill_shift c0 t r rs hr] at h3
    rw [pathOfCrumbs_cons] at h3
    simp only [List.length_cons] at h3
    rw [h3]
    rw [show preorderSibs (pathOfCrumbs cs) (c0.left.length + 1) (r :: rs)
        = preorderPaths (pathOfCrumbs cs ++ [c0.left.length + 1]) r
          ++ preorderSibs (pathOfCrumbs cs) (c0.left.length + 1 + 1) rs from by
      simp [preorderSibs]]
    try simp [List.append_assoc]

/-- The visited-path list of the work loop's pointer, from a focused
subtree to the parent level's climb: the subtree's pre-order positions,
then the right siblings' subtrees, then whatever lies beyond the parent. -/
theorem travT (t : Fiber) (c0 : Crumb) (cs : List Crumb) (fuel : Nat) :
    traverse (countF t + countL c0.right + fuel) ⟨t, c0 :: cs⟩
      = preorderPaths (pathOfCrumbs (c0 :: cs)) t
        ++ preorderSibs (pathOfCrumbs cs) (c0.left.length + 1) c0.right
        ++ (match goUpSibling (c0.fill t) cs with
            | none => []
            | some z₂ => traverse fuel z₂) := by
  cases t with
  | mk ty pr ce d a tag tcs =>
    cases tcs with
    | nil =>
      rw [show countF (Fiber.mk ty pr ce d a tag []) + countL c0.right + fuel
          = (countL c0.right + fuel) + 1 from by simp [countF, countL]; omega]
      show Zipper.path ⟨Fiber.mk ty pr ce d a tag [], c0 :: cs⟩
          :: (match getNext ⟨Fiber.mk ty pr ce d a tag [], c0 :: cs⟩ with
              | none => []
              | some z₂ => traverse (countL c0.right + fuel) z₂) = _
      rw [getNext_leaf (Fiber.mk ty pr ce d a tag []) (c0 :: cs) rfl]
      rw [travUpStep (Fiber.mk ty pr ce d a tag []) c0 cs fuel
        (fun r rs hr => travT r
          { c0 with
            left := Fiber.mk ty pr ce d a tag [] :: c0.left
            right := rs } cs fuel)]
      rw [show preorderPaths (pathOfCrumbs (c0 :: cs)) (Fiber.mk ty pr ce d a tag [])
          = [pathOfCrumbs (c0 :: cs)] from by simp [preorderPaths, preorderSibs]]
      try rfl
      try simp [Zipper.path]
    | cons c rest =>
      rw [show countF (Fiber.mk ty pr ce d a tag (c :: rest)) + countL c0.right + fuel
          = (countF c + countL rest + (countL c0.right + fuel)) + 1 from by
        simp [countF, countL]; omega]
      show Zipper.path ⟨Fiber.mk ty pr ce d a tag (c :: rest), c0 :: cs⟩
          :: (match getNext ⟨Fiber.mk ty pr ce d a tag (c :: rest), c0 :: cs⟩ with
              | none => []
              | some z₂ =>
                traverse (countF c + countL rest + (countL c0.right + fuel)) z₂)
          = _
      rw [getNext_child (Fiber.mk ty pr ce d a tag (c :: rest)) (c0 :: cs)
        c rest rfl]
      have h1 : traverse (countF c + countL rest + (countL c0.right + fuel))
          ⟨c, (Fiber.mk ty pr ce d a tag (c :: rest)).asCrumb rest :: c0 :: cs⟩
          = preorderPaths (pathOfCrumbs (c0 :: cs) ++ [0]) c
            ++ preorderSibs (pathOfCrumbs (c0 :: cs)) 1 rest
            ++ (match goUpSibling (Fiber.mk ty pr ce d a tag (c :: rest))
                  (c0 :: cs) with
                | none => []
                | some z₂ => traverse (countL c0.right + fuel) z₂) := by
        have h2 := travT c ((Fiber.mk ty pr ce d a tag (c :: rest)).asCrumb rest)
          (c0 :: cs) (countL c0.right + fuel)
        rw [fill_asCrumb] at h2
        rw [pathOfCrumbs_cons ((Fiber.mk ty pr ce d a tag (c :: rest)).asCrumb rest)
          (c0 :: cs)] at h2
        exact h2
      show Zipper.path ⟨Fiber.mk ty pr ce d a tag (c :: rest), c0 :: cs⟩
          :: traverse (countF c + countL rest + (countL c0.right + fuel))
            ⟨c, (Fiber.mk ty pr ce d a tag (c :: rest)).asCrumb rest :: c0 :: cs⟩
          = _
      rw [h1]
      rw [travUpStep (Fiber.mk ty pr ce d a tag (c :: rest)) c0 cs fuel
        (fun r rs hr => travT r
          { c0 with
            left := Fiber.mk ty pr ce d a tag (c :: rest) :: c0.left
            right := rs } cs fuel)]
      rw [show preorderPaths (pathOfCrumbs (c0 :: cs))
            (Fiber.mk ty pr ce d a tag (c :: rest))
          = pathOfCrumbs (c0 :: cs)
            :: (preorderPaths (pathOfCrumbs (c0 :: cs) ++ [0]) c
              ++ preorderSibs (pathOfCrumbs (c0 :: cs)) 1 rest) from by
        simp [preorderPaths, preorderSibs]]
      simp [Zipper.path, List.append_assoc]
termination_by sizeOf t + sizeOf c0.right
decreasing_by
  all_goals simp_wf
  all_goals try rw [hr]
  all_goals try simp [Fiber.asCrumb]
  all_goals omega

/-- After exactly as many `getNext` steps as the focused subtree and its
right siblings hold fibers, the pointer sits at the parent level's climb
result. -/
theorem iterT (t : Fiber) (c0 : Crumb) (cs : List Crumb) :
    iterNext (countF t + countL c0.right) ⟨t, c0 :: cs⟩
      = goUpSibling (c0.fill t) cs := by
  cases t with
  | mk ty pr ce d a tag tcs =>
    cases tcs with
    | nil =>
      rw [show countF (Fiber.mk ty pr ce d a tag []) + countL c0.right
          = 1 + countL c0.right from by simp [countF, countL]]
      rw [iterNext_add]
      rw [show iterNext 1 ⟨Fiber.mk ty pr ce d a tag [], c0 :: cs⟩
          = goUpSibling (Fiber.mk ty pr ce d a tag []) (c0 :: cs) from by
        show (match getNext ⟨Fiber.mk ty pr ce d a tag [], c0 :: cs⟩ with
              | none => none
              | some z₂ => iterNext 0 z₂) = _
        rw [getNext_leaf (Fiber.mk ty pr ce d a tag []) (c0 :: cs) rfl]
        cases goUpSibling (Fiber.mk ty pr ce d a tag []) (c0 :: cs) <;>
          simp [iterNext]]
      exact iterUpStep (Fiber.mk ty pr ce d a tag []) c0 cs
        (fun r rs hr => iterT r
          { c0 with
            left := Fiber.mk ty pr ce d a tag [] :: c0.left
            right := rs } cs)
    | cons c rest =>
      rw [show countF (Fiber.mk ty pr ce d a tag (c :: rest)) + countL c0.right
          = 1 + ((countF c + countL rest) + countL c0.right) from by
        simp [countF, countL]; omega]
      rw [iterNext_add]
      rw [show iterNext 1 ⟨Fiber.mk ty pr ce d a tag (c :: rest), c0 :: cs⟩
          = some ⟨c, (Fiber.mk ty pr ce d a tag (c :: rest)).asCrumb rest
              :: c0 :: cs⟩ from by
        show (match getNext ⟨Fiber.mk ty pr ce d a tag (c :: rest), c0 :: cs⟩ with
              | none => none
              | some z₂ => iterNext 0 z₂) = _
        rw [getNext_child (Fiber.mk ty pr ce d a tag (c :: rest)) (c0 :: cs)
          c rest rfl]
        simp [iterNext]]
      show iterNext ((countF c + countL rest) + countL c0.right) _ = _
      rw [iterNext_add]
      rw [show iterNext (countF c + countL rest)
          ⟨c, (Fiber.mk ty pr ce d a tag (c :: rest)).asCrumb rest :: c0 :: cs⟩
          = goUpSibling (Fiber.mk ty pr ce d a tag (c :: rest)) (c0 :: cs) from by
        have h3 := iterT c
          ((Fiber.mk ty pr ce d a tag (c :: rest)).asCrumb rest) (c0 :: cs)
        rw [fill_asCrumb] at h3
        exact h3]
      exact iterUpStep (Fiber.mk ty pr ce d a tag (c :: rest)) c0 cs
        (fun r rs hr => iterT r
          { c0 with
            left := Fiber.mk ty pr ce d a tag (c :: rest) :: c0.left
            right := rs } cs)
termination_by sizeOf t + sizeOf c0.right
decreasing_by
  all_goals simp_wf
  all_goals try rw [hr]
  all_goals try simp [Fiber.asCrumb]
  all_goals omega


end ReactJs

namespace ReactJs

/-- Iterating `getNext` from the root visits the tree's pre-order positions
and nothing else. -/
theorem traverseRoot (t : Fiber) (fuel : Nat) :
    traverse (countF t + fuel) ⟨t, []⟩ = preorderPaths [] t := by
  cases t with
  | mk ty pr ce d a tag tcs =>
    cases tcs with
    | nil =>
      rw [show countF (Fiber.mk ty pr ce d a tag []) + fuel = fuel + 1 from by
        simp [countF, countL]; omega]
      show Zipper.path ⟨Fiber.mk ty pr ce d a tag [], []⟩
          :: (match getNext ⟨Fiber.mk ty pr ce d a tag [], []⟩ with
              | none => []
              | some z₂ => traverse fuel z₂) = _
      rw [getNext_leaf (Fiber.mk ty pr ce d a tag []) [] rfl]
      rw [show goUpSibling (Fiber.mk ty pr ce d a tag []) [] = none from rfl]
      simp [Zipper.path, pathOfCrumbs, preorderPaths, preorderSibs]
    | cons c rest =>
      rw [show countF (Fiber.mk ty pr ce d a tag (c :: rest)) + fuel
          = (countF c + countL rest + fuel) + 1 from by
        simp [countF, countL]; omega]
      show Zipper.path ⟨Fiber.mk ty pr ce d a tag (c :: rest), []⟩
          :: (match getNext ⟨Fiber.mk ty pr ce d a tag (c :: rest), []⟩ with
              | none => []
              | some z₂ => traverse (countF c + countL rest + fuel) z₂) = _
      rw [getNext_child (Fiber.mk ty pr ce d a tag (c :: rest)) [] c rest rfl]
      show Zipper.path ⟨Fiber.mk ty pr ce d a tag (c :: rest), []⟩
          :: traverse (countF c + countL rest + fuel)
            ⟨c, (Fiber.mk ty pr ce d a tag (c :: rest)).asCrumb rest :: []⟩ = _
      have h1 := travT c ((Fiber.mk ty pr ce d a tag (c :: rest)).asCrumb rest)
        [] fuel
      rw [fill_asCrumb] at h1
      rw [show goUpSibling (Fiber.mk ty pr ce d a tag (c :: rest)) [] = none
        from rfl] at h1
      have h2 : traverse (countF c + countL rest + fuel)
          ⟨c, [(Fiber.mk ty pr ce d a tag (c :: rest)).asCrumb rest]⟩
          = preorderPaths [0] c ++ preorderSibs [] 1 rest ++ [] := h1
      rw [h2]
      rw [show preorderPaths ([] : Path) (Fiber.mk ty pr ce d a tag (c :: rest))
          = [] :: preorderSibs [] 0 (c :: rest) from by rw [preorderPaths]]
      rw [show preorderSibs ([] : Path) 0 (c :: rest)
          = preorderPaths ([] ++ [0]) c ++ preorderSibs [] (0 + 1) rest from by
        rw [preorderSibs]]
      simp [Zipper.path, pathOfCrumbs]

/-- After exactly as many `getNext` steps as the tree has fibers, the
pointer is `null`. -/
theorem iterRoot (t : Fiber) : iterNext (countF t) ⟨t, []⟩ = none := by
  cases t with
  | mk ty pr ce d a tag tcs =>
    cases tcs with
    | nil =>
      rw [show countF (Fiber.mk ty pr ce d a tag []) = 0 + 1 from by
        simp [countF, countL]]
      show (match getNext ⟨Fiber.mk ty pr ce d a tag [], []⟩ with
            | none => none
            | some z₂ => iterNext 0 z₂) = none
      rw [getNext_leaf (Fiber.mk ty pr ce d a tag []) [] rfl]
      rfl
    | cons c rest =>
      rw [show countF (Fiber.mk ty pr ce d a tag (c :: rest))
          = (countF c + countL rest) + 1 from by simp [countF, countL]; omega]
      rw [show (countF c + countL rest) + 1 = 1 + (countF c + countL rest) from by
        omega]
      rw [iterNext_add]
      rw [show iterNext 1 ⟨Fiber.mk ty pr ce d a tag (c :: rest), []⟩
          = some ⟨c, (Fiber.mk ty pr ce d a tag (c :: rest)).asCrumb rest :: []⟩
          from by
        show (match getNext ⟨Fiber.mk ty pr ce d a tag (c :: rest), []⟩ with
              | none => none
              | some z₂ => iterNext 0 z₂) = _
        rw [getNext_child (Fiber.mk ty pr ce d a tag (c :: rest)) [] c rest rfl]
        simp [iterNext]]
      have h1 := iterT c ((Fiber.mk ty pr ce d a tag (c :: rest)).asCrumb rest) []
      rw [fill_asCrumb] at h1
      rw [show goUpSibling (Fiber.mk ty pr ce d a tag (c :: rest)) [] = none
        from rfl] at h1
      exact h1

mutual
/-- Every position enumerated under `p` extends `p`. -/
theorem memPaths (q : Path) (t : Fiber) (p : Path)
    (h : q ∈ preorderPaths p t) : ∃ tl, q = p ++ tl := by
  cases t with
  | mk ty pr ce d a tag tcs =>
    rw [show preorderPaths p (Fiber.mk ty pr ce d a tag tcs)
        = p :: preorderSibs p 0 tcs from by rw [preorderPaths]] at h
    rcases List.mem_cons.mp h with h | h
    · exact ⟨[], by simp [h]⟩
    · obtain ⟨j, tl, _, hq⟩ := memSibs q tcs p 0 h
      exact ⟨j :: tl, hq⟩
termination_by sizeOf t

/-- Every position enumerated for siblings starting at index `i` under `p`
extends `p` by an index at least `i`. -/
theorem memSibs (q : Path) (fs : List Fiber) (p : Path) (i : Nat)
    (h : q ∈ preorderSibs p i fs) :
    ∃ j tl, i ≤ j ∧ q = p ++ j :: tl := by
  cases fs with
  | nil =>
    rw [show preorderSibs p i ([] : List Fiber) = [] from by rw [preorderSibs]]
      at h
    cases h
  | cons c rest =>
    rw [show preorderSibs p i (c :: rest)
        = preorderPaths (p ++ [i]) c ++ preorderSibs p (i + 1) rest from by
      rw [preorderSibs]] at h
    rcases List.mem_append.mp h with h | h
    · obtain ⟨tl, hq⟩ := memPaths q c (p ++ [i]) h
      exact ⟨i, tl, le_refl i, by simp [hq]⟩
    · obtain ⟨j, tl, hj, hq⟩ := memSibs q rest p (i + 1) h
      exact ⟨j, tl, by omega, hq⟩
termination_by sizeOf fs
end

end ReactJs

namespace ReactJs

mutual
/-- The pre-order enumeration of a subtree has no duplicate positions. -/
theorem nodupPaths (t : Fiber) (p : Path) : (preorderPaths p t).Nodup := by
  cases t with
  | mk ty pr ce d a tag tcs =>
    rw [show preorderPaths p (Fiber.mk ty pr ce d a tag tcs)
        = p :: preorderSibs p 0 tcs from by rw [preorderPaths]]
    refine List.nodup_cons.mpr ⟨?_, nodupSibs tcs p 0⟩
    intro hmem
    obtain ⟨j, tl, _, hq⟩ := memSibs p tcs p 0 hmem
    have : p.length = p.length + 1 + tl.length := by
      calc p.length = (p ++ j :: tl).length := by rw [hq.symm]
        _ = p.length + 1 + tl.length := by simp; omega
    omega
termination_by sizeOf t

/-- The pre-order enumeration of a sibling forest has no duplicate
positions. -/
theorem nodupSibs (fs : List Fiber) (p : Path) (i : Nat) :
    (preorderSibs p i fs).Nodup := by
  cases fs with
  | nil =>
    rw [show preorderSibs p i ([] : List Fiber) = [] from by rw [preorderSibs]]
    exact List.nodup_nil
  | cons c rest =>
    rw [show preorderSibs p i (c :: rest)
        = preorderPaths (p ++ [i]) c ++ preorderSibs p (i + 1) rest from by
      rw [preorderSibs]]
    refine List.Nodup.append (nodupPaths c (p ++ [i])) (nodupSibs rest p (i + 1))
      ?_
    intro q hqA hqB
    obtain ⟨tl, hq1⟩ := memPaths q c (p ++ [i]) hqA
    obtain ⟨j, tl2, hj, hq2⟩ := memSibs q rest p (i + 1) hqB
    rw [hq2] at hq1
    have hq3 : p ++ j :: tl2 = p ++ i :: tl := by simpa using hq1
    have : j :: tl2 = i :: tl := List.append_cancel_left hq3
    have : j = i := by injection this
    omega
termination_by sizeOf fs
end

/-- C6: for every fiber node in a finite fiber tree, `getNext` returns the
fiber's child when one exists, otherwise the sibling of the nearest
ancestor (including itself) that has one (the climbing loop steps to the
parent when the current node has no sibling and stops at the parentless
root), so iterating it from the root visits every fiber of the tree
exactly once, in pre-order (the visited-position list equals the pre-order
enumeration, which is duplicate-free), and terminates with `null` after
exactly one step per fiber. -/
theorem c6_getNext_preorder_traversal :
    (∀ (z : Zipper) (child : Fiber) (rest : List Fiber),
      z.focus.children = child :: rest →
      getNext z = some ⟨child, z.focus.asCrumb rest :: z.crumbs⟩)
    ∧ (∀ (z : Zipper), z.focus.children = [] →
        getNext z = goUpSibling z.focus z.crumbs)
    ∧ (∀ (f : Fiber) (c : Crumb) (cs : List Crumb) (r : Fiber)
        (rs : List Fiber), c.right = r :: rs →
        goUpSibling f (c :: cs)
          = some ⟨r, { c with left := f :: c.left, right := rs } :: cs⟩)
    ∧ (∀ (f : Fiber) (c : Crumb) (cs : List Crumb), c.right = [] →
        goUpSibling f (c :: cs) = goUpSibling (c.fill f) cs)
    ∧ (∀ f : Fiber, goUpSibling f [] = none)
    ∧ (∀ (t : Fiber) (fuel : Nat),
        traverse (countF t + fuel) ⟨t, []⟩ = preorderPaths [] t)
    ∧ (∀ t : Fiber, iterNext (countF t) ⟨t, []⟩ = none)
    ∧ (∀ t : Fiber, (preorderPaths [] t).Nodup) := by
  refine ⟨?_, ?_, ?_, ?_, ?_, ?_, ?_, ?_⟩
  · intro z child rest h
    cases z with
    | mk focus crumbs => exact getNext_child focus crumbs child rest h
  · intro z h
    cases z with
    | mk focus crumbs => exact getNext_leaf focus crumbs h
  · exact fun f c cs r rs h => goUpSibling_sib f c cs r rs h
  · exact fun f c cs h => goUpSibling_up f c cs h
  · exact fun f => rfl
  · exact fun t fuel => traverseRoot t fuel
  · exact fun t => iterRoot t
  · exact fun t => nodupPaths t []

/-- Witness for C6 at a concrete two-fiber tree: the hypotheses about the
child chain and crumb contents are discharged by `rfl`. -/
theorem c6_getNext_preorder_traversal_witness :
    getNext ⟨Fiber.mk (some (.tag "div")) [] [] none none none
        [Fiber.mk (some (.tag "h1")) [] [] none none none []], []⟩
      = some ⟨Fiber.mk (some (.tag "h1")) [] [] none none none [],
          [(Fiber.mk (some (.tag "div")) [] [] none none none
            [Fiber.mk (some (.tag "h1")) [] [] none none none []]).asCrumb []]⟩
    ∧ traverse
        (countF (Fiber.mk (some (.tag "div")) [] [] none none none
          [Fiber.mk (some (.tag "h1")) [] [] none none none []]) + 0)
        ⟨Fiber.mk (some (.tag "div")) [] [] none none none
          [Fiber.mk (some (.tag "h1")) [] [] none none none []], []⟩
      = preorderPaths []
          (Fiber.mk (some (.tag "div")) [] [] none none none
            [Fiber.mk (some (.tag "h1")) [] [] none none none []])
    ∧ iterNext
        (countF (Fiber.mk (some (.tag "div")) [] [] none none none
          [Fiber.mk (some (.tag "h1")) [] [] none none none []]))
        ⟨Fiber.mk (some (.tag "div")) [] [] none none none
          [Fiber.mk (some (.tag "h1")) [] [] none none none []], []⟩ = none :=
  ⟨c6_getNext_preorder_traversal.1 _ _ _ rfl,
   c6_getNext_preorder_traversal.2.2.2.2.2.1 _ 0,
   c6_getNext_preorder_traversal.2.2.2.2.2.2.1 _⟩

end ReactJs

namespace ReactJs

/-! ## Props-object and arena lemmas -/

/-- Reading the first key of a props object. -/
theorem jsGet_cons_self (k : String) (v : Value) (rest : Props) :
    jsGet ((k, v) :: rest) k = some v := by
  simp [jsGet, List.find?]

/-- Reading past a different first key. -/
theorem jsGet_cons_ne (k : String) (v : Value) (rest : Props) (q : String)
    (h : q ≠ k) : jsGet ((k, v) :: rest) q = jsGet rest q := by
  simp only [jsGet, List.find?]
  have : (decide (k = q)) = false := by simp; exact fun hc => h hc.symm
  simp [this]

/-- A present key reads to a value. -/
theorem jsGet_isSome_of_mem (p : Props) (k : String) (h : k ∈ jsKeys p) :
    (jsGet p k).isSome := by
  induction p with
  | nil => simp [jsKeys] at h
  | cons kv rest ih =>
    obtain ⟨k₁, v₁⟩ := kv
    by_cases hk : k = k₁
    · subst hk
      rw [jsGet_cons_self]
      rfl
    · rw [jsGet_cons_ne _ _ _ _ hk]
      apply ih
      simp [jsKeys] at h ⊢
      rcases h with h | h
      · exact absurd h hk
      · exact h

/-- Reading an appended props object. -/
theorem jsGet_append (a b : Props) (k : String) :
    jsGet (a ++ b) k
      = (match jsGet a k with
         | some v => some v
         | none => jsGet b k) := by
  simp only [jsGet, List.find?_append]
  cases List.find? (fun kv => kv.1 = k) a <;> simp [Option.orElse]

/-- Enumerating keys and looking each up again is the same as walking the
unique-keyed object directly. -/
theorem keysFilterMap {β : Type} (p : Props) (hnodup : (jsKeys p).Nodup)
    (pred : String → Bool) (g : String → Value → β) (v₀ : Value) :
    ((jsKeys p).filter pred).map (fun k => g k ((jsGet p k).getD v₀))
      = (p.filter (fun kv => pred kv.1)).map (fun kv => g kv.1 kv.2) := by
  induction p with
  | nil => rfl
  | cons kv rest ih =>
    obtain ⟨k, v⟩ := kv
    have hkeys : jsKeys ((k, v) :: rest) = k :: jsKeys rest := rfl
    rw [hkeys] at hnodup ⊢
    have hnotin : k ∉ jsKeys rest := (List.nodup_cons.mp hnodup).1
    have hnd : (jsKeys rest).Nodup := (List.nodup_cons.mp hnodup).2
    have hinner : ((jsKeys rest).filter pred).map
          (fun q => g q ((jsGet ((k, v) :: rest) q).getD v₀))
        = ((jsKeys rest).filter pred).map
          (fun q => g q ((jsGet rest q).getD v₀)) := by
      apply List.map_congr_left
      intro q hq
      have hqmem : q ∈ jsKeys rest := List.mem_of_mem_filter hq
      have hqk : q ≠ k := fun hc => hnotin (hc ▸ hqmem)
      rw [jsGet_cons_ne _ _ _ _ hqk]
    by_cases hp : pred k = true
    · rw [show List.filter pred (k :: jsKeys rest)
          = k :: (jsKeys rest).filter pred from by simp [hp]]
      rw [show List.filter (fun kv => pred kv.1) ((k, v) :: rest)
          = (k, v) :: rest.filter (fun kv => pred kv.1) from by
        simp [List.filter, hp]]
      simp only [List.map]
      rw [jsGet_cons_self]
      refine congrArg₂ _ rfl ?_
      rw [hinner, ih hnd]
    · rw [show List.filter pred (k :: jsKeys rest)
          = (jsKeys rest).filter pred from by simp [hp]]
      rw [show List.filter (fun kv => pred kv.1) ((k, v) :: rest)
          = rest.filter (fun kv => pred kv.1) from by simp [List.filter, hp]]
      rw [hinner, ih hnd]

/-- The empty props object reads `undefined` everywhere. -/
theorem jsGet_nil (k : String) : jsGet [] k = none := rfl

/-- Against an empty previous props object every key is new. -/
theorem filter_isNew_nil (p : Props) (pred : String → Bool) :
    ((jsKeys p).filter pred).filter (fun k => isNewKey [] p k)
      = (jsKeys p).filter pred := by
  apply List.filter_eq_self.mpr
  intro k hk
  have hmem : k ∈ jsKeys p := List.mem_of_mem_filter hk
  obtain ⟨v, hv⟩ := Option.isSome_iff_exists.mp (jsGet_isSome_of_mem p k hmem)
  simp [isNewKey, jsGet_nil, hv]

/-- `updateDom` against an empty previous props object: set every plain
property, then register every listener, in key order. -/
theorem updateDomMuts_nil_prev (d : Nat) (p : Props)
    (hnodup : (jsKeys p).Nodup) :
    updateDomMuts d [] p
      = (p.filter (fun kv => isProperty kv.1)).map
          (fun kv => Mut.setAttr d kv.1 kv.2)
        ++ (p.filter (fun kv => isEvent kv.1)).map
          (fun kv => Mut.addListener d (getEventType kv.1) kv.2) := by
  unfold updateDomMuts
  rw [show jsKeys ([] : Props) = [] from rfl]
  simp only [List.filter_nil, List.map_nil, List.nil_append]
  rw [filter_isNew_nil p isProperty, filter_isNew_nil p isEvent]
  rw [keysFilterMap p hnodup isProperty (fun k v => Mut.setAttr d k v) (.str "")]
  rw [keysFilterMap p hnodup isEvent
    (fun k v => Mut.addListener d (getEventType k) v) (.str "")]

end ReactJs

namespace ReactJs

/-- Modifying the freshly appended last slot of an arena. -/
theorem modify_append_self {α : Type} (s : List α) (x : α) (f : α → α) :
    (s ++ [x]).modify f s.length = s ++ [f x] := by
  apply List.ext_getElem?
  intro n
  rw [List.getElem?_modify]
  by_cases h : s.length = n
  · subst h
    simp
  · have hmap : ((fun a => if s.length = n then f a else a) <$> (s ++ [x])[n]?)
        = (s ++ [x])[n]? := by
      cases (s ++ [x])[n]? <;> simp [h]
    rw [hmap]
    rcases Nat.lt_trichotomy n s.length with h₂ | h₂ | h₂
    · simp [List.getElem?_append, h₂]
    · exact absurd h₂.symm h
    · have hlt : ¬ n < s.length := by omega
      simp only [List.getElem?_append, if_neg hlt]
      have hx : ¬ n - s.length < 1 := by omega
      rw [List.getElem?_eq_none (by simp; omega),
        List.getElem?_eq_none (by simp; omega)]

/-- Setting a list of fresh, mutually distinct properties on the last
arena slot appends them in order. -/
theorem foldl_applyMut_setAttrs (s : DomArena) (node : DomNode)
    (ps : List (String × Value))
    (hfresh : ∀ kv ∈ ps, jsGet node.attrs kv.1 = none)
    (hnodup : (ps.map (fun kv => kv.1)).Nodup) :
    (ps.map (fun kv => Mut.setAttr s.length kv.1 kv.2)).foldl applyMut
        (s ++ [node])
      = s ++ [{ node with attrs := node.attrs ++ ps }] := by
  induction ps generalizing node with
  | nil => simp
  | cons kv rest ih =>
    obtain ⟨k, v⟩ := kv
    simp only [List.map, List.foldl]
    have hstep : applyMut (s ++ [node]) (Mut.setAttr s.length k v)
        = s ++ [{ node with attrs := node.attrs ++ [(k, v)] }] := by
      show domSetAttr (s ++ [node]) s.length k v = _
      unfold domSetAttr domModify
      rw [modify_append_self]
      rw [show jsGet node.attrs k = none from hfresh (k, v) (by simp)]
      rfl
    rw [hstep]
    have hfresh₂ : ∀ kv ∈ rest,
        jsGet ({ node with attrs := node.attrs ++ [(k, v)] } : DomNode).attrs
          kv.1 = none := by
      intro kv hkv
      show jsGet (node.attrs ++ [(k, v)]) kv.1 = none
      rw [jsGet_append]
      rw [hfresh kv (by simp [hkv])]
      have hne : kv.1 ≠ k := by
        have hk : k ∉ rest.map (fun kv => kv.1) := (List.nodup_cons.mp hnodup).1
        intro hc
        exact hk (hc ▸ List.mem_map_of_mem (fun kv => kv.1) hkv)
      rw [jsGet_cons_ne _ _ _ _ hne]
      rfl
    rw [ih { node with attrs := node.attrs ++ [(k, v)] } hfresh₂
      (List.nodup_cons.mp hnodup).2]
    simp

/-- Registering a list of fresh, mutually distinct listeners on the last
arena slot appends them in order. -/
theorem foldl_applyMut_addListeners (s : DomArena) (node : DomNode)
    (ps : List (String × Value))
    (hfresh : ∀ q ∈ ps, q ∉ node.listeners)
    (hnodup : ps.Nodup) :
    (ps.map (fun q => Mut.addListener s.length q.1 q.2)).foldl applyMut
        (s ++ [node])
      = s ++ [{ node with listeners := node.listeners ++ ps }] := by
  induction ps generalizing node with
  | nil => simp
  | cons q rest ih =>
    obtain ⟨et, hv⟩ := q
    simp only [List.map, List.foldl]
    have hstep : applyMut (s ++ [node]) (Mut.addListener s.length et hv)
        = s ++ [{ node with listeners := node.listeners ++ [(et, hv)] }] := by
      show domAddListener (s ++ [node]) s.length et hv = _
      unfold domAddListener domModify
      rw [modify_append_self]
      rw [if_neg (hfresh (et, hv) (by simp))]
    rw [hstep]
    have hfresh₂ : ∀ q ∈ rest,
        q ∉ ({ node with listeners := node.listeners ++ [(et, hv)] }
          : DomNode).listeners := by
      intro q hq
      show q ∉ node.listeners ++ [(et, hv)]
      simp
      refine ⟨fun hc => hfresh q (by simp [hq]) hc, ?_⟩
      intro hc
      exact (List.nodup_cons.mp hnodup).1 (hc ▸ hq)
    rw [ih { node with listeners := node.listeners ++ [(et, hv)] } hfresh₂
      (List.nodup_cons.mp hnodup).2]
    simp

/-- The nodup key list of a filtered props object. -/
theorem nodup_filter_keys (p : Props) (hnodup : (jsKeys p).Nodup)
    (pred : (String × Value) → Bool) :
    ((p.filter pred).map (fun kv => kv.1)).Nodup := by
  have hsub : List.Sublist ((p.filter pred).map (fun kv => kv.1))
      (p.map (fun kv => kv.1)) :=
    List.Sublist.map (fun kv => kv.1) (List.filter_sublist p)
  exact hnodup.sublist hsub

set_option maxHeartbeats 2000000 in
/-- Applying the `updateDom` calls of a fresh mount to the freshly
allocated empty node fills in exactly the plain props and listeners. -/
theorem foldFreshNode (s : DomArena) (p : Props) (node₀ : DomNode)
    (hnodup : (jsKeys p).Nodup)
    (hpairs : ((p.filter (fun kv => isEvent kv.1)).map
      (fun kv => (getEventType kv.1, kv.2))).Nodup)
    (ha : node₀.attrs = []) (hl : node₀.listeners = []) :
    (updateDomMuts s.length [] p).foldl applyMut (s ++ [node₀])
      = s ++ [{ node₀ with
          attrs := p.filter (fun kv => isProperty kv.1),
          listeners := (p.filter (fun kv => isEvent kv.1)).map
            (fun kv => (getEventType kv.1, kv.2)) }] := by
  rw [updateDomMuts_nil_prev s.length p hnodup]
  rw [List.foldl_append]
  rw [foldl_applyMut_setAttrs s node₀ (p.filter (fun kv => isProperty kv.1))
    (fun kv _ => by rw [ha]; rfl)
    (nodup_filter_keys p hnodup (fun kv => isProperty kv.1))]
  rw [show (p.filter (fun kv => isEvent kv.1)).map
      (fun kv => Mut.addListener s.length (getEventType kv.1) kv.2)
      = ((p.filter (fun kv => isEvent kv.1)).map
          (fun kv => (getEventType kv.1, kv.2))).map
        (fun q => Mut.addListener s.length q.1 q.2) from by
    rw [List.map_map]; rfl]
  rw [foldl_applyMut_addListeners s
    { node₀ with attrs := node₀.attrs ++ p.filter (fun kv => isProperty kv.1) }
    ((p.filter (fun kv => isEvent kv.1)).map (fun kv => (getEventType kv.1, kv.2)))
    (fun q hq => by
      show q ∉ node₀.listeners
      rw [hl]
      exact List.not_mem_nil q)
    hpairs]
  rw [ha, hl]
  simp

set_option maxHeartbeats 1000000 in
/-- `createDom` on a fresh fiber: allocate the node, apply every plain
prop and register every listener. -/
theorem createDomFresh (s : DomArena) (t : String) (p : Props)
    (hnodup : (jsKeys p).Nodup)
    (hpairs : ((p.filter (fun kv => isEvent kv.1)).map
      (fun kv => (getEventType kv.1, kv.2))).Nodup) :
    createDom s (some (.tag t)) p
      = (s ++ [mkFreshNode t p], s.length, updateDomMuts s.length [] p) := by
  simp only [createDom, updateDom]
  split
  · next ht =>
      rw [foldFreshNode s p _ hnodup hpairs rfl rfl]
      rw [show mkFreshNode t p
          = { isText := true, tag := "",
              attrs := p.filter (fun kv => isProperty kv.1),
              listeners := (p.filter (fun kv => isEvent kv.1)).map
                (fun kv => (getEventType kv.1, kv.2)),
              children := [] } from by unfold mkFreshNode; rw [if_pos ht]]
  · next ht =>
      rw [foldFreshNode s p _ hnodup hpairs rfl rfl]
      rw [show mkFreshNode t p
          = { isText := false, tag := t,
              attrs := p.filter (fun kv => isProperty kv.1),
              listeners := (p.filter (fun kv => isEvent kv.1)).map
                (fun kv => (getEventType kv.1, kv.2)),
              children := [] } from by unfold mkFreshNode; rw [if_neg ht]]

end ReactJs

namespace ReactJs

/-! ## C1 development: equation and shape lemmas for `buildFresh` -/

theorem buildFreshL_nil (base : Nat) : buildFreshL base [] = ([], [], []) := by
  simp [buildFreshL]

theorem buildFreshL_none (base : Nat) (rest : List (Option Element)) :
    buildFreshL base (none :: rest) = buildFreshL base rest := by
  simp [buildFreshL]

theorem buildFresh_def (base : Nat) (t : String) (p : Props)
    (cs : List (Option Element)) :
    buildFresh base (.mk (.tag t) p cs)
      = (.mk (some (.tag t)) p cs (some base) none (some "PLACEMENT")
           (buildFreshL (base + 1) cs).1,
         mkFreshNode t p :: (buildFreshL (base + 1) cs).2.1,
         updateDomMuts base [] p ++ (buildFreshL (base + 1) cs).2.2) := by
  rcases h : buildFreshL (base + 1) cs with ⟨fs, ns, ms⟩
  simp [buildFresh, h]

theorem buildFresh_fn_def (base : Nat) (i : Nat) (r : Element) (p : Props)
    (cs : List (Option Element)) :
    buildFresh base (.mk (.fn i r) p cs)
      = (.mk (some (.fn i r)) p cs none none (some "PLACEMENT")
           [(buildFresh base r).1],
         (buildFresh base r).2.1,
         (buildFresh base r).2.2) := by
  rcases h : buildFresh base r with ⟨f, ns, ms⟩
  simp [buildFresh, h]

theorem buildFreshL_cons (base : Nat) (e : Element)
    (rest : List (Option Element)) :
    buildFreshL base (some e :: rest)
      = ((buildFresh base e).1
           :: (buildFreshL (base + (buildFresh base e).2.1.length) rest).1,
         (buildFresh base e).2.1
           ++ (buildFreshL (base + (buildFresh base e).2.1.length) rest).2.1,
         (buildFresh base e).2.2
           ++ (buildFreshL (base + (buildFresh base e).2.1.length) rest).2.2) := by
  rcases h1 : buildFresh base e with ⟨f, ns, ms⟩
  rcases h2 : buildFreshL (base + ns.length) rest with ⟨fs, ns₂, ms₂⟩
  simp [buildFreshL, h1, h2]

mutual

theorem bf_nodes_len (e : Element) :
    ∀ base, (buildFresh base e).2.1.length = countN e := by
  intro base
  cases e with
  | mk t p cs =>
    cases t with
    | tag s =>
      rw [buildFresh_def]
      rw [show countN (Element.mk (.tag s) p cs) = 1 + countNL cs from by
        simp [countN]]
      simp [bfL_nodes_len cs (base + 1)]
      omega
    | fn i r =>
      rw [buildFresh_fn_def]
      rw [show countN (Element.mk (.fn i r) p cs) = countN r from by
        simp [countN]]
      exact bf_nodes_len r base
termination_by sizeOf e

theorem bfL_nodes_len (els : List (Option Element)) :
    ∀ base, (buildFreshL base els).2.1.length = countNL els := by
  intro base
  cases els with
  | nil => simp [buildFreshL_nil, countNL]
  | cons c rest =>
    cases c with
    | none =>
      rw [buildFreshL_none]
      rw [show countNL (none :: rest) = countNL rest from by simp [countNL]]
      exact bfL_nodes_len rest base
    | some e =>
      rw [buildFreshL_cons]
      rw [show countNL (some e :: rest) = countN e + countNL rest from by
        simp [countNL]]
      simp [bf_nodes_len e base, bfL_nodes_len rest _]
termination_by sizeOf els

end

theorem bfF_type (base : Nat) (e : Element) :
    (buildFresh base e).1.type = some e.type := by
  cases e with
  | mk t p cs =>
    cases t with
    | tag s => rw [buildFresh_def]; rfl
    | fn i r => rw [buildFresh_fn_def]; rfl

theorem bfF_props (base : Nat) (e : Element) :
    (buildFresh base e).1.props = e.props := by
  cases e with
  | mk t p cs =>
    cases t with
    | tag s => rw [buildFresh_def]; rfl
    | fn i r => rw [buildFresh_fn_def]; rfl

theorem bfF_childEls (base : Nat) (e : Element) :
    (buildFresh base e).1.childEls = e.children := by
  cases e with
  | mk t p cs =>
    cases t with
    | tag s => rw [buildFresh_def]; rfl
    | fn i r => rw [buildFresh_fn_def]; rfl

theorem elTypeEq_refl (t : ElType) : elTypeEq t t = true := by
  cases t <;> simp [elTypeEq]

end ReactJs

namespace ReactJs

/-! ## C1 development: the reconciliation of fresh and identical passes -/

theorem reconcileFresh (els : List (Option Element)) (h : WfRL els) :
    ∀ first prevNull : Bool, (first = true ∨ prevNull = false) →
    reconcileEls els [] first prevNull = ([], some (shellsL els)) := by
  induction els with
  | nil =>
    intro first prevNull _
    simp [reconcileEls, reconcileOlds, shellsL]
  | cons c rest ih =>
    intro first prevNull hfp
    cases c with
    | none => simp [WfRL] at h
    | some e =>
      have hrest : WfRL rest := by
        simp only [WfRL] at h
        exact h.2
      have hstep := ih hrest false false (Or.inr rfl)
      rcases hfp with hf | hp
      · subst hf
        simp only [reconcileEls, List.head?_nil, List.tail_nil,
          Bool.not_true, Bool.false_and, if_false, hstep]
        simp [shellsL, shellOf, hstep]
      · subst hp
        simp only [reconcileEls, List.head?_nil, List.tail_nil,
          Bool.and_false, if_false, hstep]
        simp [shellsL, shellOf, hstep]

theorem reconcileChildrenFresh (cs : List (Option Element)) (h : WfRL cs) :
    reconcileChildren cs none = ([], some (shellsL cs)) := by
  unfold reconcileChildren
  exact reconcileFresh cs h true false (Or.inl rfl)

theorem reconcileUpd (els : List (Option Element)) (h : WfRL els) :
    ∀ (b : Nat) (first prevNull : Bool), (first = true ∨ prevNull = false) →
    reconcileEls els (buildFreshL b els).1 first prevNull
      = ([], some (updShellsL b els)) := by
  induction els with
  | nil =>
    intro b first prevNull _
    rw [buildFreshL_nil]
    simp [reconcileEls, reconcileOlds, updShellsL]
  | cons c rest ih =>
    intro b first prevNull hfp
    cases c with
    | none => simp [WfRL] at h
    | some e =>
      have hrest : WfRL rest := by
        simp only [WfRL] at h
        exact h.2
      rw [buildFreshL_cons, bf_nodes_len]
      have hstep := ih hrest (b + countN e) false false (Or.inr rfl)
      rcases hfp with hf | hp
      · subst hf
        simp only [reconcileEls, List.head?_cons, List.tail_cons,
          bfF_type, elTypeEq_refl, Bool.not_true, Bool.false_and, if_false,
          hstep]
        simp [updShellsL, updShellOf, hstep]
      · subst hp
        simp only [reconcileEls, List.head?_cons, List.tail_cons,
          bfF_type, elTypeEq_refl, Bool.and_false, if_false, hstep]
        simp [updShellsL, updShellOf, hstep]

end ReactJs

namespace ReactJs

/-! ## C1 development: loop-continuation lemmas -/

theorem prependMuts_nil (r : Except EngErr (EngineState × Fiber × List Mut)) :
    prependMuts [] r = r := by
  cases r with
  | ok v =>
    rcases v with ⟨s, f, ms⟩
    rfl
  | error e => rfl

theorem prependMuts_comp (a b : List Mut)
    (r : Except EngErr (EngineState × Fiber × List Mut)) :
    prependMuts a (prependMuts b r) = prependMuts (a ++ b) r := by
  cases r with
  | ok v =>
    rcases v with ⟨s, f, ms⟩
    simp [prependMuts]
  | error e => rfl

theorem runFrom_nil (fuel : Nat) (s : EngineState) (f : Fiber) :
    runFrom fuel s f [] = .ok (s, f, []) := by
  simp [runFrom, goUpSibling, assembleRoot]

theorem runFrom_climb (fuel : Nat) (s : EngineState) (f : Fiber) (c0 : Crumb)
    (cs : List Crumb) (h : c0.right = []) :
    runFrom fuel s f (c0 :: cs) = runFrom fuel s (c0.fill f) cs := by
  simp only [runFrom]
  rw [goUpSibling_up f c0 cs h]
  cases hg : goUpSibling (c0.fill f) cs <;> simp [hg, assembleRoot]

theorem runFrom_sib (fuel : Nat) (s : EngineState) (f : Fiber) (c0 : Crumb)
    (cs : List Crumb) (r : Fiber) (rs : List Fiber) (h : c0.right = r :: rs) :
    runFrom fuel s f (c0 :: cs)
      = runLoop fuel s ⟨r, { c0 with left := f :: c0.left, right := rs } :: cs⟩ := by
  simp only [runFrom]
  rw [goUpSibling_sib f c0 cs r rs h]

theorem contLoop_leaf (fuel : Nat) (s : EngineState) (f : Fiber)
    (cs : List Crumb) (h : f.children = []) :
    contLoop fuel s ⟨f, cs⟩ = runFrom fuel s f cs := by
  simp only [contLoop, runFrom]
  rw [getNext_leaf f cs h]

theorem contLoop_child (fuel : Nat) (s : EngineState) (f : Fiber)
    (cs : List Crumb) (c : Fiber) (rest : List Fiber)
    (h : f.children = c :: rest) :
    contLoop fuel s ⟨f, cs⟩ = runLoop fuel s ⟨c, f.asCrumb rest :: cs⟩ := by
  simp only [contLoop]
  rw [getNext_child f cs c rest h]

theorem runLoop_unit (fuel : Nat) (s : EngineState) (z : Zipper)
    (s₁ : EngineState) (z₁ : Zipper) (m₀ : List Mut)
    (h : performUnitOfWork s z = .ok (s₁, z₁, m₀)) :
    runLoop (fuel + 1) s z = prependMuts m₀ (contLoop fuel s₁ z₁) := by
  simp only [runLoop, h]
  cases hg : getNext z₁ with
  | none => simp [contLoop, hg, prependMuts]
  | some z₂ =>
    cases hr : runLoop fuel s₁ z₂ with
    | ok v =>
      rcases v with ⟨s₂, root, ms₂⟩
      simp [contLoop, hg, hr, prependMuts]
    | error err => simp [contLoop, hg, hr, prependMuts]

end ReactJs

namespace ReactJs

/-! ## C1 development: one unit of fresh work -/

theorem puowFresh (s : EngineState) (t : String) (p : Props)
    (cs : List (Option Element)) (crumbs : List Crumb)
    (hnodup : (jsKeys p).Nodup)
    (hpairs : ((p.filter (fun kv => isEvent kv.1)).map
      (fun kv => (getEventType kv.1, kv.2))).Nodup)
    (hcs : WfRL cs) :
    performUnitOfWork s ⟨shellOf (.mk (.tag t) p cs), crumbs⟩
      = .ok ({ s with doms := s.doms ++ [mkFreshNode t p] },
          ⟨.mk (some (.tag t)) p cs (some s.doms.length) none
            (some "PLACEMENT") (shellsL cs), crumbs⟩,
          updateDomMuts s.doms.length [] p) := by
  unfold performUnitOfWork
  simp only [shellOf, Element.type, Element.props, Element.children,
    Fiber.dom, Fiber.type, Fiber.props, Fiber.childEls, Fiber.alt,
    Fiber.effectTag, Fiber.children, Fiber.withDom, Fiber.withChildren]
  rw [createDomFresh s.doms t p hnodup hpairs]
  rw [reconcileChildrenFresh cs hcs]
  simp [oldDomParentHint, Fiber.effectTag, Fiber.children]

/-- One unit of fresh work on a component shell: no host node is created,
the rendered output becomes the single child shell, and the state is
untouched. -/
theorem puowFreshFn (s : EngineState) (i : Nat) (r : Element) (p : Props)
    (cs : List (Option Element)) (crumbs : List Crumb) (hr : WfR r) :
    performUnitOfWork s ⟨shellOf (.mk (.fn i r) p cs), crumbs⟩
      = .ok (s,
          ⟨.mk (some (.fn i r)) p cs none none (some "PLACEMENT")
            (shellsL [some r]), crumbs⟩,
          []) := by
  unfold performUnitOfWork
  simp only [shellOf, Element.type, Element.props, Element.children,
    Fiber.dom, Fiber.type, Fiber.props, Fiber.childEls, Fiber.alt,
    Fiber.effectTag, Fiber.children, Fiber.withChildren]
  rw [reconcileChildrenFresh [some r] (by
    simp only [WfRL]
    exact ⟨hr, trivial⟩)]
  simp [oldDomParentHint, Fiber.effectTag, Fiber.children]

theorem puowRender (s : EngineState) (e : Element) (he : WfR e) :
    performUnitOfWork s ⟨.mk none [] [some e] (some 0) none none [], []⟩
      = .ok (s, ⟨.mk none [] [some e] (some 0) none none [shellOf e], []⟩,
          []) := by
  unfold performUnitOfWork
  simp only [Fiber.dom, Fiber.childEls, Fiber.alt, Fiber.withChildren,
    Fiber.type, Fiber.props, Fiber.effectTag]
  rw [reconcileChildrenFresh [some e] (by
    simp only [WfRL]
    exact ⟨he, trivial⟩)]
  simp [shellsL, oldDomParentHint]

end ReactJs

namespace ReactJs

/-! ## C1 development: the fresh pass builds `buildFreshL` -/

theorem WfRL_head {r : Element} {rs' : List (Option Element)}
    (h : WfRL (some r :: rs')) : WfR r := by
  simp only [WfRL] at h
  exact h.1

theorem WfRL_tail {r : Element} {rs' : List (Option Element)}
    (h : WfRL (some r :: rs')) : WfRL rs' := by
  simp only [WfRL] at h
  exact h.2

/-- One sibling block of the fresh pass: from a just-completed fiber, the
climb either processes the pending sibling shells (by the induction
hypothesis `ih`) or leaves the level.  Analogue of `travUpStep`. -/
theorem runFromSibs (rsEls : List (Option Element)) (hw : WfRL rsEls)
    (c0 : Crumb) (crumbs : List Crumb) (s : EngineState) (fuel : Nat)
    (fe : Fiber) (base : Nat) (hr : c0.right = shellsL rsEls)
    (ih : ∀ (r : Element) (rs' : List (Option Element)),
      rsEls = some r :: rs' →
      runLoop (countE r + countEL rs' + fuel) s
          ⟨shellOf r,
           { c0 with left := fe :: c0.left, right := shellsL rs' } :: crumbs⟩
        = prependMuts (buildFreshL base (some r :: rs')).2.2
            (runFrom fuel
              { s with doms := s.doms
                  ++ (buildFreshL base (some r :: rs')).2.1 }
              (.mk c0.ptype c0.pprops c0.pchildEls c0.pdom c0.palt c0.ptag
                ((fe :: c0.left).reverse
                  ++ (buildFreshL base (some r :: rs')).1))
              crumbs)) :
    runFrom (countEL rsEls + fuel) s fe (c0 :: crumbs)
      = prependMuts (buildFreshL base rsEls).2.2
          (runFrom fuel
            { s with doms := s.doms ++ (buildFreshL base rsEls).2.1 }
            (.mk c0.ptype c0.pprops c0.pchildEls c0.pdom c0.palt c0.ptag
              (c0.left.reverse ++ fe :: (buildFreshL base rsEls).1))
            crumbs) := by
  cases rsEls with
  | nil =>
    rw [show countEL ([] : List (Option Element)) + fuel = fuel from by
      simp [countEL]]
    rw [runFrom_climb _ _ _ _ _ (by rw [hr]; rfl)]
    rw [buildFreshL_nil]
    simp [prependMuts_nil, Crumb.fill, hr, shellsL]
  | cons c rs' =>
    cases c with
    | none => simp only [WfRL] at hw
    | some r =>
      rw [show countEL (some r :: rs') + fuel
          = countE r + countEL rs' + fuel from by simp [countEL]]
      rw [runFrom_sib _ _ _ _ _ (shellOf r) (shellsL rs')
        (by rw [hr]; simp [shellsL])]
      rw [ih r rs' rfl]
      simp [List.append_assoc]

end ReactJs

namespace ReactJs

/-- The fresh work loop over one shell subtree and its pending sibling
shells computes `buildFreshL`: host nodes allocated in pre-order from the
arena end, the `updateDom` calls of every `createDom` in pre-order, and the
completed fibers handed to the parent level.  Analogue of `travT`. -/
theorem passT (e : Element) (rsEls : List (Option Element))
    (he : WfR e) (hrs : WfRL rsEls) (c0 : Crumb) (crumbs : List Crumb)
    (s : EngineState) (fuel : Nat) (base : Nat) (hb : s.doms.length = base)
    (hr : c0.right = shellsL rsEls) :
    runLoop (countE e + countEL rsEls + fuel) s ⟨shellOf e, c0 :: crumbs⟩
      = prependMuts (buildFreshL base (some e :: rsEls)).2.2
          (runFrom fuel
            { s with doms := s.doms
                ++ (buildFreshL base (some e :: rsEls)).2.1 }
            (.mk c0.ptype c0.pprops c0.pchildEls c0.pdom c0.palt c0.ptag
              (c0.left.reverse ++ (buildFreshL base (some e :: rsEls)).1))
            crumbs) := by
  subst hb
  cases e with
  | mk ty p cs =>
  cases ty with
  | fn i r =>
    have hr' : WfR r := by simpa only [WfR] using he
    rw [show countE (Element.mk (.fn i r) p cs) + countEL rsEls + fuel
        = (countE r + countEL ([] : List (Option Element))
            + (countEL rsEls + fuel)) + 1 from by
      simp [countE, countEL]; omega]
    rw [runLoop_unit _ _ _ _ _ _
      (puowFreshFn s i r p cs (c0 :: crumbs) hr')]
    rw [prependMuts_nil]
    rw [contLoop_child _ _ _ _ (shellOf r)
      (shellsL ([] : List (Option Element)))
      (by simp [Fiber.children, shellsL])]
    have hpass := passT r [] hr' (by simp [WfRL])
      ((Fiber.mk (some (.fn i r)) p cs none none (some "PLACEMENT")
        (shellsL [some r])).asCrumb (shellsL ([] : List (Option Element))))
      (c0 :: crumbs) s (countEL rsEls + fuel) s.doms.length rfl rfl
    rw [hpass]
    simp only [Fiber.asCrumb, Fiber.type, Fiber.props, Fiber.childEls,
      Fiber.dom, Fiber.alt, Fiber.effectTag, List.reverse_nil,
      List.nil_append]
    rw [runFromSibs rsEls hrs c0 crumbs
      { s with doms := s.doms
          ++ (buildFreshL s.doms.length (some r :: [])).2.1 }
      fuel
      (.mk (some (.fn i r)) p cs none none (some "PLACEMENT")
        ((buildFreshL s.doms.length (some r :: [])).1))
      (s.doms.length + countN (Element.mk (.fn i r) p cs)) hr
      (fun r' rs' hEq =>
        passT r' rs' (WfRL_head (hEq ▸ hrs)) (WfRL_tail (hEq ▸ hrs))
          { c0 with
            left := (Fiber.mk (some (.fn i r)) p cs none none
              (some "PLACEMENT")
              ((buildFreshL s.doms.length (some r :: [])).1)) :: c0.left
            right := shellsL rs' }
          crumbs
          { s with doms := s.doms
              ++ (buildFreshL s.doms.length (some r :: [])).2.1 }
          fuel
          (s.doms.length + countN (Element.mk (.fn i r) p cs))
          (by simp [bfL_nodes_len, countN, countNL]; try omega) rfl)]
    rw [prependMuts_comp]
    rw [buildFreshL_cons (List.length s.doms)
      (Element.mk (.fn i r) p cs) rsEls]
    rw [bf_nodes_len]
    rw [buildFresh_fn_def]
    simp [buildFreshL_cons, buildFreshL_nil, List.append_assoc]
  | tag t =>
    simp only [WfR] at he
    obtain ⟨h1, h2, h3, h4⟩ := he
    cases cs with
    | nil =>
      rw [show countE (Element.mk (.tag t) p []) + countEL rsEls + fuel
          = (countEL rsEls + fuel) + 1 from by simp [countE, countEL]; omega]
      rw [runLoop_unit _ _ _ _ _ _
        (puowFresh s t p [] (c0 :: crumbs) h1 h2 h4)]
      rw [contLoop_leaf _ _ _ _ (by simp [Fiber.children, shellsL])]
      rw [runFromSibs rsEls hrs c0 crumbs
        { s with doms := s.doms ++ [mkFreshNode t p] } fuel
        (.mk (some (.tag t)) p [] (some s.doms.length) none
          (some "PLACEMENT") (shellsL []))
        (s.doms.length + 1) hr
        (fun r rs' hEq =>
          passT r rs' (WfRL_head (hEq ▸ hrs)) (WfRL_tail (hEq ▸ hrs))
            { c0 with
              left := (Fiber.mk (some (.tag t)) p [] (some s.doms.length)
                none (some "PLACEMENT") (shellsL [])) :: c0.left
              right := shellsL rs' }
            crumbs { s with doms := s.doms ++ [mkFreshNode t p] } fuel
            (s.doms.length + 1) (by simp) rfl)]
      rw [prependMuts_comp]
      rw [buildFreshL_cons, buildFresh_def, buildFreshL_nil]
      simp [shellsL, List.append_assoc]
    | cons c cs' =>
      cases c with
      | none => simp only [WfRL] at h4
      | some e₁ =>
        rw [show countE (Element.mk (.tag t) p (some e₁ :: cs'))
              + countEL rsEls + fuel
            = (countE e₁ + countEL cs' + (countEL rsEls + fuel)) + 1 from by
          simp [countE, countEL]; omega]
        rw [runLoop_unit _ _ _ _ _ _
          (puowFresh s t p (some e₁ :: cs') (c0 :: crumbs) h1 h2 h4)]
        rw [contLoop_child _ _ _ _ (shellOf e₁) (shellsL cs')
          (by simp [Fiber.children, shellsL])]
        have hpass := passT e₁ cs' (WfRL_head h4) (WfRL_tail h4)
          ((Fiber.mk (some (.tag t)) p (some e₁ :: cs') (some s.doms.length)
            none (some "PLACEMENT") (shellsL (some e₁ :: cs'))).asCrumb
            (shellsL cs'))
          (c0 :: crumbs) { s with doms := s.doms ++ [mkFreshNode t p] }
          (countEL rsEls + fuel) (s.doms.length + 1) (by simp) rfl
        rw [hpass]
        simp only [Fiber.asCrumb, Fiber.type, Fiber.props, Fiber.childEls,
          Fiber.dom, Fiber.alt, Fiber.effectTag, List.reverse_nil,
          List.nil_append]
        rw [runFromSibs rsEls hrs c0 crumbs
          { s with doms := s.doms ++ [mkFreshNode t p]
              ++ (buildFreshL (s.doms.length + 1) (some e₁ :: cs')).2.1 }
          fuel
          (.mk (some (.tag t)) p (some e₁ :: cs') (some s.doms.length) none
            (some "PLACEMENT")
            ((buildFreshL (s.doms.length + 1) (some e₁ :: cs')).1))
          (s.doms.length + countN (Element.mk (.tag t) p (some e₁ :: cs')))
          hr
          (fun r rs' hEq =>
            passT r rs' (WfRL_head (hEq ▸ hrs)) (WfRL_tail (hEq ▸ hrs))
              { c0 with
                left := (Fiber.mk (some (.tag t)) p (some e₁ :: cs')
                  (some s.doms.length) none (some "PLACEMENT")
                  ((buildFreshL (s.doms.length + 1) (some e₁ :: cs')).1))
                  :: c0.left
                right := shellsL rs' }
              crumbs
              { s with doms := s.doms ++ [mkFreshNode t p]
                  ++ (buildFreshL (s.doms.length + 1) (some e₁ :: cs')).2.1 }
              fuel
              (s.doms.length
                + countN (Element.mk (.tag t) p (some e₁ :: cs')))
              (by simp [bfL_nodes_len, countN, countNL]; omega) rfl)]
        rw [prependMuts_comp, prependMuts_comp]
        rw [buildFreshL_cons (List.length s.doms)
          (Element.mk (.tag t) p (some e₁ :: cs')) rsEls]
        rw [bf_nodes_len]
        rw [buildFresh_def]
        simp [List.append_assoc]
termination_by sizeOf e + sizeOf rsEls
decreasing_by
  all_goals (subst_vars; simp_wf; try rw [hEq]; try simp)
  all_goals omega

end ReactJs

namespace ReactJs

/-! ## C4 development: the second, identical pass -/

theorem reconcileChildrenUpd (cs : List (Option Element)) (b : Nat)
    (h : WfRL cs) (f : Fiber) (hf : f.children = (buildFreshL b cs).1) :
    reconcileChildren cs (some f) = ([], some (updShellsL b cs)) := by
  show reconcileEls cs f.children true false = _
  rw [hf]
  exact reconcileUpd cs h b true false (Or.inl rfl)

theorem puowUpd (s : EngineState) (t : String) (p : Props)
    (cs : List (Option Element)) (b : Nat) (crumbs : List Crumb)
    (hcs : WfRL cs) :
    performUnitOfWork s ⟨updShellOf b (.mk (.tag t) p cs), crumbs⟩
      = .ok (s,
          ⟨.mk (some (.tag t)) p cs (some b)
            (some (buildFresh b (.mk (.tag t) p cs)).1)
            (some "UPDATE") (updShellsL (b + 1) cs), crumbs⟩,
          []) := by
  unfold performUnitOfWork
  simp only [updShellOf, Element.type, Element.props, Element.children,
    buildFresh_def, Fiber.dom, Fiber.childEls, Fiber.alt, Fiber.type,
    Fiber.props, Fiber.effectTag, Fiber.children, Fiber.withChildren]
  rw [reconcileChildrenUpd cs (b + 1) hcs
    (.mk (some (.tag t)) p cs (some b) none (some "PLACEMENT")
      (buildFreshL (b + 1) cs).1)
    rfl]
  simp [oldDomParentHint, buildFresh_def, Fiber.dom, Fiber.effectTag,
    Fiber.children]

/-- One unit of second-pass work on a component `UPDATE` shell: the alt is
the fresh component fiber (which has no host node), its rendered child
chain is reconciled against the same single rendered element, and nothing
else changes. -/
theorem puowUpdFn (s : EngineState) (i : Nat) (r : Element) (p : Props)
    (cs : List (Option Element)) (b : Nat) (crumbs : List Crumb)
    (hr : WfR r) :
    performUnitOfWork s ⟨updShellOf b (.mk (.fn i r) p cs), crumbs⟩
      = .ok (s,
          ⟨.mk (some (.fn i r)) p cs none
            (some (buildFresh b (.mk (.fn i r) p cs)).1)
            (some "UPDATE") (updShellsL b [some r]), crumbs⟩,
          []) := by
  unfold performUnitOfWork
  simp only [updShellOf, Element.type, Element.props, Element.children,
    buildFresh_fn_def, Fiber.dom, Fiber.childEls, Fiber.alt, Fiber.type,
    Fiber.props, Fiber.effectTag, Fiber.children, Fiber.withChildren]
  rw [reconcileChildrenUpd [some r] b (by
      simp only [WfRL]
      exact ⟨hr, trivial⟩)
    (.mk (some (.fn i r)) p cs none none (some "PLACEMENT")
      [(buildFresh b r).1])
    (by simp [Fiber.children, buildFreshL_cons, buildFreshL_nil])]
  simp [oldDomParentHint, Fiber.dom, Fiber.effectTag, Fiber.children]

/-- One sibling block of the second pass: the climb either processes the
pending `UPDATE` shells or leaves the level, changing nothing. -/
theorem runFromSibs2 (rsEls : List (Option Element)) (hw : WfRL rsEls)
    (c0 : Crumb) (crumbs : List Crumb) (s : EngineState) (fuel : Nat)
    (fe : Fiber) (b2 : Nat) (hr : c0.right = updShellsL b2 rsEls)
    (ih : ∀ (r : Element) (rs' : List (Option Element)),
      rsEls = some r :: rs' →
      runLoop (countE r + countEL rs' + fuel) s
          ⟨updShellOf b2 r,
           { c0 with
             left := fe :: c0.left
             right := updShellsL (b2 + countN r) rs' } :: crumbs⟩
        = runFrom fuel s
            (.mk c0.ptype c0.pprops c0.pchildEls c0.pdom c0.palt c0.ptag
              ((fe :: c0.left).reverse
                ++ updFresh b2 r :: updFreshL (b2 + countN r) rs'))
            crumbs) :
    runFrom (countEL rsEls + fuel) s fe (c0 :: crumbs)
      = runFrom fuel s
          (.mk c0.ptype c0.pprops c0.pchildEls c0.pdom c0.palt c0.ptag
            (c0.left.reverse ++ fe :: updFreshL b2 rsEls))
          crumbs := by
  cases rsEls with
  | nil =>
    rw [show countEL ([] : List (Option Element)) + fuel = fuel from by
      simp [countEL]]
    rw [runFrom_climb _ _ _ _ _ (by rw [hr]; rfl)]
    simp [Crumb.fill, hr, updShellsL, updFreshL]
  | cons c rs' =>
    cases c with
    | none => simp only [WfRL] at hw
    | some r =>
      rw [show countEL (some r :: rs') + fuel
          = countE r + countEL rs' + fuel from by simp [countEL]]
      rw [runFrom_sib _ _ _ _ _ (updShellOf b2 r)
        (updShellsL (b2 + countN r) rs') (by rw [hr]; simp [updShellsL])]
      rw [ih r rs' rfl]
      simp [updFreshL, List.append_assoc]

/-- The second pass's work loop over one `UPDATE` shell subtree and its
pending siblings: no host calls, no state change, the completed `UPDATE`
fibers handed to the parent level. -/
theorem pass2T (e : Element) (rsEls : List (Option Element))
    (he : WfR e) (hrs : WfRL rsEls) (b b2 : Nat) (c0 : Crumb)
    (crumbs : List Crumb) (s : EngineState) (fuel : Nat)
    (hr : c0.right = updShellsL b2 rsEls) :
    runLoop (countE e + countEL rsEls + fuel) s ⟨updShellOf b e, c0 :: crumbs⟩
      = runFrom fuel s
          (.mk c0.ptype c0.pprops c0.pchildEls c0.pdom c0.palt c0.ptag
            (c0.left.reverse ++ updFresh b e :: updFreshL b2 rsEls))
          crumbs := by
  cases e with
  | mk ty p cs =>
  cases ty with
  | fn i r =>
    have hr' : WfR r := by simpa only [WfR] using he
    rw [show countE (Element.mk (.fn i r) p cs) + countEL rsEls + fuel
        = (countE r + countEL ([] : List (Option Element))
            + (countEL rsEls + fuel)) + 1 from by
      simp [countE, countEL]; omega]
    rw [runLoop_unit _ _ _ _ _ _
      (puowUpdFn s i r p cs b (c0 :: crumbs) hr')]
    rw [prependMuts_nil]
    rw [contLoop_child _ _ _ _ (updShellOf b r)
      (updShellsL (b + countN r) ([] : List (Option Element)))
      (by simp [Fiber.children, updShellsL])]
    have hpass := pass2T r [] hr' (by simp [WfRL]) b (b + countN r)
      ((Fiber.mk (some (.fn i r)) p cs none
        (some (buildFresh b (.mk (.fn i r) p cs)).1) (some "UPDATE")
        (updShellsL b [some r])).asCrumb
        (updShellsL (b + countN r) ([] : List (Option Element))))
      (c0 :: crumbs) s (countEL rsEls + fuel) rfl
    rw [hpass]
    simp only [Fiber.asCrumb, Fiber.type, Fiber.props, Fiber.childEls,
      Fiber.dom, Fiber.alt, Fiber.effectTag, List.reverse_nil,
      List.nil_append]
    rw [runFromSibs2 rsEls hrs c0 crumbs s fuel
      (.mk (some (.fn i r)) p cs none
        (some (buildFresh b (.mk (.fn i r) p cs)).1) (some "UPDATE")
        (updFresh b r :: updFreshL (b + countN r) []))
      b2 hr
      (fun r' rs' hEq =>
        pass2T r' rs' (WfRL_head (hEq ▸ hrs)) (WfRL_tail (hEq ▸ hrs))
          b2 (b2 + countN r')
          { c0 with
            left := (Fiber.mk (some (.fn i r)) p cs none
              (some (buildFresh b (.mk (.fn i r) p cs)).1) (some "UPDATE")
              (updFresh b r :: updFreshL (b + countN r) [])) :: c0.left
            right := updShellsL (b2 + countN r') rs' }
          crumbs s fuel rfl)]
    simp [updFresh, updFreshL, List.append_assoc]
  | tag t =>
    simp only [WfR] at he
    obtain ⟨h1, h2, h3, h4⟩ := he
    cases cs with
    | nil =>
      rw [show countE (Element.mk (.tag t) p []) + countEL rsEls + fuel
          = (countEL rsEls + fuel) + 1 from by simp [countE, countEL]; omega]
      rw [runLoop_unit _ _ _ _ _ _
        (puowUpd s t p [] b (c0 :: crumbs) h4)]
      rw [prependMuts_nil]
      rw [contLoop_leaf _ _ _ _ (by simp [Fiber.children, updShellsL])]
      rw [runFromSibs2 rsEls hrs c0 crumbs s fuel
        (.mk (some (.tag t)) p [] (some b)
          (some (buildFresh b (.mk (.tag t) p [])).1)
          (some "UPDATE") (updShellsL (b + 1) []))
        b2 hr
        (fun r rs' hEq =>
          pass2T r rs' (WfRL_head (hEq ▸ hrs)) (WfRL_tail (hEq ▸ hrs))
            b2 (b2 + countN r)
            { c0 with
              left := (Fiber.mk (some (.tag t)) p [] (some b)
                (some (buildFresh b (.mk (.tag t) p [])).1) (some "UPDATE")
                (updShellsL (b + 1) [])) :: c0.left
              right := updShellsL (b2 + countN r) rs' }
            crumbs s fuel rfl)]
      simp [updFresh, updFreshL, updShellsL]
    | cons c cs' =>
      cases c with
      | none => simp only [WfRL] at h4
      | some e₁ =>
        rw [show countE (Element.mk (.tag t) p (some e₁ :: cs'))
              + countEL rsEls + fuel
            = (countE e₁ + countEL cs' + (countEL rsEls + fuel)) + 1 from by
          simp [countE, countEL]; omega]
        rw [runLoop_unit _ _ _ _ _ _
          (puowUpd s t p (some e₁ :: cs') b (c0 :: crumbs) h4)]
        rw [prependMuts_nil]
        rw [contLoop_child _ _ _ _ (updShellOf (b + 1) e₁)
          (updShellsL (b + 1 + countN e₁) cs')
          (by simp [Fiber.children, updShellsL])]
        have hpass := pass2T e₁ cs' (WfRL_head h4) (WfRL_tail h4)
          (b + 1) (b + 1 + countN e₁)
          ((Fiber.mk (some (.tag t)) p (some e₁ :: cs') (some b)
            (some (buildFresh b (.mk (.tag t) p (some e₁ :: cs'))).1)
            (some "UPDATE") (updShellsL (b + 1) (some e₁ :: cs'))).asCrumb
            (updShellsL (b + 1 + countN e₁) cs'))
          (c0 :: crumbs) s (countEL rsEls + fuel) rfl
        rw [hpass]
        simp only [Fiber.asCrumb, Fiber.type, Fiber.props, Fiber.childEls,
          Fiber.dom, Fiber.alt, Fiber.effectTag, List.reverse_nil,
          List.nil_append]
        rw [runFromSibs2 rsEls hrs c0 crumbs s fuel
          (.mk (some (.tag t)) p (some e₁ :: cs') (some b)
            (some (buildFresh b (.mk (.tag t) p (some e₁ :: cs'))).1)
            (some "UPDATE")
            (updFresh (b + 1) e₁ :: updFreshL (b + 1 + countN e₁) cs'))
          b2 hr
          (fun r rs' hEq =>
            pass2T r rs' (WfRL_head (hEq ▸ hrs)) (WfRL_tail (hEq ▸ hrs))
              b2 (b2 + countN r)
              { c0 with
                left := (Fiber.mk (some (.tag t)) p (some e₁ :: cs') (some b)
                  (some (buildFresh b (.mk (.tag t) p (some e₁ :: cs'))).1)
                  (some "UPDATE")
                  (updFresh (b + 1) e₁ :: updFreshL (b + 1 + countN e₁) cs'))
                  :: c0.left
                right := updShellsL (b2 + countN r) rs' }
              crumbs s fuel rfl)]
        simp [updFresh, updFreshL, List.append_assoc]
termination_by sizeOf e + sizeOf rsEls
decreasing_by
  all_goals (subst_vars; simp_wf; try rw [hEq]; try simp)
  all_goals omega

end ReactJs

namespace ReactJs

/-! ## C1 development: the whole first work loop -/

theorem mountLoop (e : Element) (he : WfR e) (fuel : Nat) :
    runLoop (countE e + 1 + fuel)
        { doms := initialDoms, flushed := none, wipDeletions := [] }
        (render e 0)
      = .ok ({ doms := initialDoms ++ (buildFreshL 1 [some e]).2.1,
               flushed := none, wipDeletions := [] },
          .mk none [] [some e] (some 0) none none ((buildFreshL 1 [some e]).1),
          (buildFreshL 1 [some e]).2.2) := by
  rw [show countE e + 1 + fuel
      = (countE e + countEL ([] : List (Option Element)) + fuel) + 1 from by
    simp [countEL]; omega]
  simp only [render]
  rw [runLoop_unit _ _ _ _ _ _ (puowRender
    { doms := initialDoms, flushed := none, wipDeletions := [] } e he)]
  rw [prependMuts_nil]
  rw [contLoop_child _ _ _ _ (shellOf e) [] (by simp [Fiber.children])]
  have hp := passT e [] he (by simp [WfRL])
    ((Fiber.mk none [] [some e] (some 0) none none [shellOf e]).asCrumb [])
    [] { doms := initialDoms, flushed := none, wipDeletions := [] } fuel 1
    (by simp [initialDoms]) rfl
  rw [hp]
  simp only [Fiber.asCrumb, Fiber.type, Fiber.props, Fiber.childEls,
    Fiber.dom, Fiber.alt, Fiber.effectTag, List.reverse_nil,
    List.nil_append]
  rw [runFrom_nil]
  simp [prependMuts]

/-! ## C4 development: the whole second work loop -/

theorem secondLoop (e : Element) (he : WfR e) (fuel : Nat)
    (s : EngineState) :
    runLoop (countE e + 1 + fuel) s (rerenderRoot (rootFiberOf e))
      = .ok (s, root2FiberOf e, []) := by
  rw [show countE e + 1 + fuel
      = (countE e + countEL ([] : List (Option Element)) + fuel) + 1 from by
    simp [countEL]; omega]
  simp only [rerenderRoot, rootFiberOf, Fiber.props, Fiber.childEls,
    Fiber.dom]
  rw [runLoop_unit _ _ _ _ _ _ (by
    show performUnitOfWork s
        ⟨.mk none [] [some e] (some 0) (some (rootFiberOf e)) none [], []⟩
      = .ok (s,
          ⟨.mk none [] [some e] (some 0) (some (rootFiberOf e)) none
            [updShellOf 1 e], []⟩, [])
    unfold performUnitOfWork
    simp only [Fiber.dom, Fiber.childEls, Fiber.alt, Fiber.withChildren,
      Fiber.type, Fiber.props, Fiber.effectTag, Fiber.children]
    rw [reconcileChildrenUpd [some e] 1 (by
        simp only [WfRL]
        exact ⟨he, trivial⟩)
      (rootFiberOf e) (by
        simp [rootFiberOf, Fiber.children, buildFreshL_cons,
          buildFreshL_nil])]
    simp [oldDomParentHint, rootFiberOf, Fiber.dom, Fiber.effectTag,
      Fiber.children, updShellsL])]
  rw [prependMuts_nil]
  rw [contLoop_child _ _ _ _ (updShellOf 1 e) [] (by simp [Fiber.children])]
  have hp := pass2T e [] he (by simp [WfRL]) 1 (1 + countE e)
    ((Fiber.mk none [] [some e] (some 0) (some (rootFiberOf e)) none
      [updShellOf 1 e]).asCrumb [])
    [] s fuel (by simp [Fiber.asCrumb, updShellsL])
  rw [hp]
  simp only [Fiber.asCrumb, Fiber.type, Fiber.props, Fiber.childEls,
    Fiber.dom, Fiber.alt, Fiber.effectTag, List.reverse_nil,
    List.nil_append]
  rw [runFrom_nil]
  simp [root2FiberOf, updFreshL]

end ReactJs

namespace ReactJs

/-! ## Commit-phase lemmas -/

/-- `updateDom` against identical prop objects computes an empty delta. -/
theorem updateDomMuts_self (d : Nat) (p : Props) :
    updateDomMuts d p p = [] := by
  have hnew : ∀ k, isNewKey p p k = false := by
    intro k
    simp [isNewKey]
  have hgone : ∀ k ∈ jsKeys p, isGoneKey p k = false := by
    intro k hk
    have hs := jsGet_isSome_of_mem p k hk
    unfold isGoneKey
    cases hj : jsGet p k with
    | none =>
      rw [hj] at hs
      simp at hs
    | some v => simp
  unfold updateDomMuts
  rw [show ((jsKeys p).filter isEvent).filter
      (fun key => isGoneKey p key || isNewKey p p key) = [] from by
    rw [List.filter_eq_nil_iff]
    intro k hk
    simp [hgone k (List.mem_of_mem_filter hk), hnew k]]
  rw [show ((jsKeys p).filter isProperty).filter (isGoneKey p) = [] from by
    rw [List.filter_eq_nil_iff]
    intro k hk
    simp [hgone k (List.mem_of_mem_filter hk)]]
  rw [show ((jsKeys p).filter isProperty).filter (isNewKey p p) = [] from by
    rw [List.filter_eq_nil_iff]
    intro k hk
    simp [hnew k]]
  rw [show ((jsKeys p).filter isEvent).filter (isNewKey p p) = [] from by
    rw [List.filter_eq_nil_iff]
    intro k hk
    simp [hnew k]]
  simp

/-- Committing a freshly built chain: one `appendChild` per fiber, parent
before children, children before right siblings. -/
theorem commitChainFresh (els : List (Option Element)) (b dp : Nat)
    (s : DomArena) (fuel : Nat) :
    commitChain (countEL els + 1 + fuel) s dp (buildFreshL b els).1
      = .ok ((commitMutsFreshL dp b els).foldl applyMut s,
          commitMutsFreshL dp b els) := by
  cases els with
  | nil =>
    rw [buildFreshL_nil]
    rw [show countEL ([] : List (Option Element)) + 1 + fuel
        = fuel + 1 from by simp [countEL]; omega]
    rw [show commitMutsFreshL dp b ([] : List (Option Element)) = [] from by
      simp [commitMutsFreshL]]
    simp [commitChain]
  | cons c rest =>
    cases c with
    | none =>
      rw [buildFreshL_none]
      rw [show countEL (none :: rest) = countEL rest from by simp [countEL]]
      rw [show commitMutsFreshL dp b (none :: rest)
          = commitMutsFreshL dp b rest from by simp [commitMutsFreshL]]
      exact commitChainFresh rest b dp s fuel
    | some e =>
      cases e with
      | mk ty p cs =>
      cases ty with
      | fn i r =>
        rw [buildFreshL_cons, bf_nodes_len, buildFresh_fn_def]
        rw [show countEL (some (Element.mk (.fn i r) p cs) :: rest) + 1 + fuel
            = (countEL [some r] + 1 + (countEL rest + fuel)) + 1 from by
          simp [countEL, countE]; omega]
        simp only [commitChain, Fiber.effectTag, Fiber.dom, Fiber.children]
        simp only [decide_True, decide_False, Option.isSome_none,
          Option.isSome_some, Bool.and_self, Bool.false_and, Bool.and_false,
          Bool.and_true, Bool.true_and, if_true, if_false, Option.getD_none,
          Option.some.injEq, reduceCtorEq]
        simp only [show (("PLACEMENT" = "DELETION") : Prop) = False from by
            simp,
          if_false]
        rw [show [(buildFresh b r).1] = (buildFreshL b [some r]).1 from by
          simp [buildFreshL_cons, buildFreshL_nil]]
        rw [commitChainFresh [some r] b dp s (countEL rest + fuel)]
        dsimp only
        rw [show countEL [some r] + 1 + (countEL rest + fuel)
            = countEL rest + 1 + (countEL [some r] + fuel) from by omega]
        rw [commitChainFresh rest (b + countN (Element.mk (.fn i r) p cs)) dp
          ((commitMutsFreshL dp b [some r]).foldl applyMut s)
          (countEL [some r] + fuel)]
        dsimp only
        rw [show commitMutsFreshL dp b (some (Element.mk (.fn i r) p cs)
              :: rest)
            = commitMutsFreshL dp b [some r]
              ++ commitMutsFreshL dp (b + countN (Element.mk (.fn i r) p cs))
                rest
          from by simp [commitMutsFreshL, commitMutsFresh, countN]]
        simp [List.foldl_append]
      | tag t =>
        rw [buildFreshL_cons, bf_nodes_len, buildFresh_def]
        rw [show countEL (some (Element.mk (.tag t) p cs) :: rest) + 1 + fuel
            = (countEL cs + 1 + (countEL rest + fuel)) + 1 from by
          simp [countEL, countE]; omega]
        simp only [commitChain, Fiber.effectTag, Fiber.dom, Fiber.children]
        simp only [decide_True, decide_False, Option.isSome_some,
          Bool.and_self, Bool.false_and, Bool.and_true, Bool.true_and,
          if_true, if_false, Option.getD_some]
        rw [commitChainFresh cs (b + 1) b (applyMut s (.appendChild dp b))
          (countEL rest + fuel)]
        dsimp only
        rw [show countEL cs + 1 + (countEL rest + fuel)
            = countEL rest + 1 + (countEL cs + fuel) from by omega]
        rw [commitChainFresh rest (b + countN (Element.mk (.tag t) p cs)) dp
          ((commitMutsFreshL b (b + 1) cs).foldl applyMut
            (applyMut s (.appendChild dp b)))
          (countEL cs + fuel)]
        dsimp only
        rw [show commitMutsFreshL dp b (some (Element.mk (.tag t) p cs)
              :: rest)
            = Mut.appendChild dp b :: (commitMutsFreshL b (b + 1) cs
              ++ commitMutsFreshL dp (b + countN (Element.mk (.tag t) p cs))
                rest)
          from by simp [commitMutsFreshL, commitMutsFresh]]
        simp [List.foldl_append]
termination_by sizeOf els
decreasing_by
  all_goals (subst_vars; simp_wf; try simp)
  all_goals omega

/-- Committing the second pass's `UPDATE` chain: every prop delta is empty,
so no host call is made and the arena is untouched. -/
theorem commitChainUpd (els : List (Option Element)) (b dp : Nat)
    (s : DomArena) (fuel : Nat) :
    commitChain (countEL els + 1 + fuel) s dp (updFreshL b els)
      = .ok (s, []) := by
  cases els with
  | nil =>
    rw [show updFreshL b ([] : List (Option Element)) = [] from by
      simp [updFreshL]]
    rw [show countEL ([] : List (Option Element)) + 1 + fuel
        = fuel + 1 from by simp [countEL]; omega]
    simp [commitChain]
  | cons c rest =>
    cases c with
    | none =>
      rw [show updFreshL b (none :: rest) = updFreshL b rest from by
        simp [updFreshL]]
      rw [show countEL (none :: rest) = countEL rest from by simp [countEL]]
      exact commitChainUpd rest b dp s fuel
    | some e =>
      cases e with
      | mk ty p cs =>
      cases ty with
      | fn i r =>
        rw [show updFreshL b (some (Element.mk (.fn i r) p cs) :: rest)
            = updFresh b (Element.mk (.fn i r) p cs)
              :: updFreshL (b + countN (Element.mk (.fn i r) p cs)) rest
          from by simp [updFreshL]]
        rw [show updFresh b (Element.mk (.fn i r) p cs)
            = .mk (some (.fn i r)) p cs none
                (some (buildFresh b (Element.mk (.fn i r) p cs)).1)
                (some "UPDATE") [updFresh b r] from by simp [updFresh]]
        rw [show countEL (some (Element.mk (.fn i r) p cs) :: rest) + 1 + fuel
            = (countEL [some r] + 1 + (countEL rest + fuel)) + 1 from by
          simp [countEL, countE]; omega]
        simp only [commitChain, Fiber.effectTag, Fiber.dom, Fiber.children,
          Fiber.alt]
        simp only [decide_True, decide_False, Option.isSome_none,
          Option.isSome_some, Bool.and_self, Bool.false_and, Bool.and_false,
          Bool.and_true, Bool.true_and, if_true, if_false, Option.getD_none,
          Option.some.injEq, reduceCtorEq]
        simp only [show (("UPDATE" = "PLACEMENT") : Prop) = False from by
            simp,
          show (("UPDATE" = "DELETION") : Prop) = False from by simp,
          show ((true = true) : Prop) = True from by simp,
          show ((false = true) : Prop) = False from by simp,
          decide_True, decide_False, Bool.false_and, Bool.and_false,
          if_true, if_false]
        rw [show [updFresh b r] = updFreshL b [some r] from by
          simp [updFreshL]]
        rw [commitChainUpd [some r] b dp s (countEL rest + fuel)]
        dsimp only
        rw [show countEL [some r] + 1 + (countEL rest + fuel)
            = countEL rest + 1 + (countEL [some r] + fuel) from by omega]
        rw [commitChainUpd rest (b + countN (Element.mk (.fn i r) p cs)) dp s
          (countEL [some r] + fuel)]
        simp
      | tag t =>
        rw [show updFreshL b (some (Element.mk (.tag t) p cs) :: rest)
            = updFresh b (Element.mk (.tag t) p cs)
              :: updFreshL (b + countN (Element.mk (.tag t) p cs)) rest
          from by simp [updFreshL]]
        rw [show updFresh b (Element.mk (.tag t) p cs)
            = .mk (some (.tag t)) p cs (some b)
                (some (buildFresh b (Element.mk (.tag t) p cs)).1)
                (some "UPDATE")
                (updFreshL (b + 1) cs) from by simp [updFresh]]
        rw [show countEL (some (Element.mk (.tag t) p cs) :: rest) + 1 + fuel
            = (countEL cs + 1 + (countEL rest + fuel)) + 1 from by
          simp [countEL, countE]; omega]
        simp only [commitChain, Fiber.effectTag, Fiber.dom, Fiber.children,
          Fiber.alt]
        simp only [decide_True, decide_False, Option.isSome_some,
          Bool.and_self, Bool.false_and, Bool.and_true, Bool.true_and,
          if_true, if_false, Option.getD_some, Option.some.injEq,
          reduceCtorEq]
        simp only [show (("UPDATE" = "PLACEMENT") : Prop) = False from by
            simp,
          show (("UPDATE" = "DELETION") : Prop) = False from by simp,
          show ((true = true) : Prop) = True from by simp,
          show ((false = true) : Prop) = False from by simp,
          decide_True, decide_False, Bool.false_and, if_true, if_false]
        rw [bfF_props]
        dsimp only [Element.props, Fiber.props]
        rw [show updateDom s b p p = (s, []) from by
          unfold updateDom
          rw [updateDomMuts_self]
          simp]
        dsimp only
        rw [commitChainUpd cs (b + 1) b s (countEL rest + fuel)]
        dsimp only
        rw [show countEL cs + 1 + (countEL rest + fuel)
            = countEL rest + 1 + (countEL cs + fuel) from by omega]
        rw [commitChainUpd rest (b + countN (Element.mk (.tag t) p cs)) dp s
          (countEL cs + fuel)]
        simp
termination_by sizeOf els
decreasing_by
  all_goals (subst_vars; simp_wf; try simp)
  all_goals omega

end ReactJs

namespace ReactJs

/-! ## Arena lemmas for the commit fold -/

theorem modify_append_left {α : Type} (s u : List α) (d : Nat) (f : α → α)
    (h : d < s.length) :
    (s ++ u).modify f d = s.modify f d ++ u := by
  apply List.ext_getElem?
  intro n
  rw [List.getElem?_modify]
  by_cases hn : n < s.length
  · simp [List.getElem?_append, hn, List.length_modify, List.getElem?_modify,
      List.getElem_modify]
  · have hdn : d ≠ n := by omega
    simp only [List.getElem?_append, if_neg hn, List.length_modify]
    cases u[n - s.length]? <;> simp [hdn]

theorem modify_comp {α : Type} (s : List α) (d : Nat) (f g : α → α) :
    (s.modify f d).modify g d = s.modify (fun a => g (f a)) d := by
  apply List.ext_getElem?
  intro n
  rw [List.getElem?_modify, List.getElem?_modify, List.getElem?_modify]
  by_cases hn : d = n
  · cases s[n]? <;> simp [hn]
  · cases s[n]? <;> simp [hn]

theorem modify_congr_id {α : Type} (s : List α) (d : Nat) (f : α → α)
    (h : ∀ a, f a = a) :
    s.modify f d = s := by
  apply List.ext_getElem?
  intro n
  rw [List.getElem?_modify]
  cases s[n]? <;> simp [h]

theorem mkFreshNode_children (t : String) (p : Props) :
    (mkFreshNode t p).children = [] := by
  unfold mkFreshNode
  split <;> rfl

mutual

theorem wired_len (e : Element) :
    ∀ base, (wiredFresh base e).length = countN e := by
  intro base
  cases e with
  | mk ty p cs =>
    cases ty with
    | tag t =>
      rw [show wiredFresh base (Element.mk (.tag t) p cs)
          = { mkFreshNode t p with children := wiredRootIds (base + 1) cs }
            :: wiredFreshL (base + 1) cs from by simp [wiredFresh]]
      rw [show countN (Element.mk (.tag t) p cs) = 1 + countNL cs from by
        simp [countN]]
      simp [wiredL_len cs (base + 1)]
      omega
    | fn i r =>
      rw [show wiredFresh base (Element.mk (.fn i r) p cs)
          = wiredFresh base r from by simp [wiredFresh]]
      rw [show countN (Element.mk (.fn i r) p cs) = countN r from by
        simp [countN]]
      exact wired_len r base
termination_by sizeOf e

theorem wiredL_len (els : List (Option Element)) :
    ∀ base, (wiredFreshL base els).length = countNL els := by
  intro base
  cases els with
  | nil => simp [wiredFreshL, countNL]
  | cons c rest =>
    cases c with
    | none =>
      rw [show wiredFreshL base (none :: rest) = wiredFreshL base rest from by
        simp [wiredFreshL]]
      rw [show countNL (none :: rest) = countNL rest from by simp [countNL]]
      exact wiredL_len rest base
    | some e =>
      rw [show wiredFreshL base (some e :: rest)
          = wiredFresh base e ++ wiredFreshL (base + countN e) rest from by
        simp [wiredFreshL]]
      rw [show countNL (some e :: rest) = countN e + countNL rest from by
        simp [countNL]]
      simp [wired_len e base, wiredL_len rest _]
termination_by sizeOf els

end

end ReactJs

namespace ReactJs

theorem modify_append_self' {α : Type} (s : List α) (x : α) (f : α → α)
    (d : Nat) (h : d = s.length) :
    (s ++ [x]).modify f d = s ++ [f x] := by
  subst h
  exact modify_append_self s x f

theorem applyMut_appendChild (s : DomArena) (pn c : Nat) :
    applyMut s (.appendChild pn c)
      = s.modify (fun n => { n with children := n.children ++ [c] }) pn :=
  rfl

/-- Folding the commit's `appendChild` calls over the freshly allocated
nodes wires every subtree root into its parent, in order. -/
theorem foldCommitL (els : List (Option Element)) :
    ∀ (dp : Nat) (s extra : DomArena), dp < s.length →
    (commitMutsFreshL dp s.length els).foldl applyMut
        (s ++ (buildFreshL s.length els).2.1 ++ extra)
      = s.modify (fun n =>
          { n with children := n.children ++ wiredRootIds s.length els }) dp
          ++ wiredFreshL s.length els ++ extra := by
  intro dp s extra h
  cases els with
  | nil =>
    rw [buildFreshL_nil]
    rw [show commitMutsFreshL dp s.length ([] : List (Option Element)) = []
      from by simp [commitMutsFreshL]]
    rw [show wiredFreshL s.length ([] : List (Option Element)) = [] from by
      simp [wiredFreshL]]
    rw [modify_congr_id _ _ _ (fun a => by simp [wiredRootIds])]
    simp
  | cons c rest =>
    cases c with
    | none =>
      rw [buildFreshL_none]
      rw [show commitMutsFreshL dp s.length (none :: rest)
          = commitMutsFreshL dp s.length rest from by simp [commitMutsFreshL]]
      rw [show wiredFreshL s.length (none :: rest)
          = wiredFreshL s.length rest from by simp [wiredFreshL]]
      simp only [show wiredRootIds s.length (none :: rest)
          = wiredRootIds s.length rest from by simp [wiredRootIds]]
      exact foldCommitL rest dp s extra h
    | some e =>
      cases e with
      | mk ty p cs =>
      cases ty with
      | fn i r =>
        have hred := foldCommitL (some r :: rest) dp s extra h
        rw [show commitMutsFreshL dp s.length
            (some (Element.mk (.fn i r) p cs) :: rest)
            = commitMutsFreshL dp s.length (some r :: rest) from by
          simp [commitMutsFreshL, commitMutsFresh, countN]]
        rw [show (buildFreshL s.length
              (some (Element.mk (.fn i r) p cs) :: rest)).2.1
            = (buildFreshL s.length (some r :: rest)).2.1 from by
          rw [buildFreshL_cons, buildFreshL_cons, bf_nodes_len, bf_nodes_len,
            buildFresh_fn_def]
          simp [countN]]
        rw [show wiredRootIds s.length
            (some (Element.mk (.fn i r) p cs) :: rest)
            = wiredRootIds s.length (some r :: rest) from by
          simp [wiredRootIds, countN]]
        rw [show wiredFreshL s.length
            (some (Element.mk (.fn i r) p cs) :: rest)
            = wiredFreshL s.length (some r :: rest) from by
          simp [wiredFreshL, wiredFresh, countN]]
        exact hred
      | tag t =>
        rw [buildFreshL_cons, bf_nodes_len, buildFresh_def]
        rw [show commitMutsFreshL dp s.length
            (some (Element.mk (.tag t) p cs) :: rest)
            = Mut.appendChild dp s.length
              :: (commitMutsFreshL s.length (s.length + 1) cs
                ++ commitMutsFreshL dp
                  (s.length + countN (Element.mk (.tag t) p cs)) rest) from by
          simp [commitMutsFreshL, commitMutsFresh]]
        rw [List.foldl_cons, applyMut_appendChild]
        rw [show s ++ (mkFreshNode t p
              :: (buildFreshL (s.length + 1) cs).2.1
              ++ (buildFreshL (s.length + countN (Element.mk (.tag t) p cs))
                rest).2.1) ++ extra
            = s ++ ((mkFreshNode t p :: (buildFreshL (s.length + 1) cs).2.1
              ++ (buildFreshL (s.length + countN (Element.mk (.tag t) p cs))
                rest).2.1) ++ extra) from by simp]
        rw [modify_append_left s _ dp _ h]
        rw [List.foldl_append]
        have hin := foldCommitL cs s.length
          (s.modify (fun n =>
            { n with children := n.children ++ [s.length] }) dp
            ++ [mkFreshNode t p])
          ((buildFreshL (s.length + countN (Element.mk (.tag t) p cs)) rest).2.1
            ++ extra)
          (by simp [List.length_modify])
        simp only [List.length_append, List.length_modify, List.length_cons,
          List.length_nil, List.length_singleton] at hin
        rw [show s.modify (fun n =>
              { n with children := n.children ++ [s.length] }) dp
            ++ (mkFreshNode t p :: (buildFreshL (s.length + 1) cs).2.1
              ++ (buildFreshL (s.length + countN (Element.mk (.tag t) p cs))
                rest).2.1 ++ extra)
            = (s.modify (fun n =>
                { n with children := n.children ++ [s.length] }) dp
              ++ [mkFreshNode t p]) ++ (buildFreshL (s.length + 1) cs).2.1
              ++ ((buildFreshL (s.length + countN (Element.mk (.tag t) p cs))
                rest).2.1 ++ extra) from by simp]
        rw [hin]
        rw [modify_append_self' _ _ _ _ (by simp [List.length_modify])]
        rw [mkFreshNode_children]
        have hrest := foldCommitL rest dp
          (s.modify (fun n =>
            { n with children := n.children ++ [s.length] }) dp
            ++ wiredFresh s.length (Element.mk (.tag t) p cs))
          extra
          (by simp [List.length_modify, wired_len]; omega)
        simp only [List.length_append, List.length_modify, wired_len]
          at hrest
        rw [show (s.modify (fun n =>
              { n with children := n.children ++ [s.length] }) dp
            ++ [{ mkFreshNode t p with
                  children := [] ++ wiredRootIds (s.length + 1) cs }])
            ++ wiredFreshL (s.length + 1) cs
            ++ ((buildFreshL (s.length + countN (Element.mk (.tag t) p cs))
              rest).2.1 ++ extra)
            = (s.modify (fun n =>
                { n with children := n.children ++ [s.length] }) dp
              ++ wiredFresh s.length (Element.mk (.tag t) p cs))
              ++ (buildFreshL (s.length + countN (Element.mk (.tag t) p cs))
                rest).2.1 ++ extra from by
          simp [wiredFresh]]
        rw [hrest]
        rw [modify_append_left _ _ dp _ (by simp [List.length_modify]; omega)]
        rw [modify_comp]
        simp [wiredRootIds, wiredFreshL, List.append_assoc]
termination_by sizeOf els
decreasing_by
  all_goals (subst_vars; simp_wf; try simp)
  all_goals omega

end ReactJs

namespace ReactJs

/-! ## The two passes, end to end -/

theorem mountFresh (e : Element) (he : WfR e) (fuel : Nat) :
    mount (countE e + 2 + fuel) e
      = .ok ({ doms := mountedDoms e, flushed := some (rootFiberOf e),
               wipDeletions := [] },
          rootFiberOf e, (buildFreshL 1 [some e]).2.2,
          commitMutsFreshL 0 1 [some e]) := by
  unfold mount runPass
  rw [show countE e + 2 + fuel = countE e + 1 + (1 + fuel) from by omega]
  rw [mountLoop e he (1 + fuel)]
  dsimp only
  unfold commit
  rw [show commitDeletions (countE e + 1 + (1 + fuel))
      (initialDoms ++ (buildFreshL 1 [some e]).2.1) [] = .ok
      (initialDoms ++ (buildFreshL 1 [some e]).2.1, []) from by
    rw [show countE e + 1 + (1 + fuel) = (countE e + 1 + fuel) + 1 from by
      omega]
    rfl]
  dsimp only [Fiber.dom, Fiber.children]
  rw [show countE e + 1 + (1 + fuel)
      = countEL [some e] + 1 + (1 + fuel) from by simp [countEL]]
  rw [commitChainFresh [some e] 1 0
    (initialDoms ++ (buildFreshL 1 [some e]).2.1) (1 + fuel)]
  dsimp only
  have hfold := foldCommitL [some e] 0 initialDoms [] (by simp [initialDoms])
  simp only [show List.length initialDoms = 1 from rfl, List.append_nil]
    at hfold
  rw [hfold]
  have hroot : (Fiber.mk none ([] : Props) [some e] (some 0) none none
      ((buildFreshL 1 [some e]).1)) = rootFiberOf e := by
    rw [buildFreshL_cons, buildFreshL_nil]
    simp [rootFiberOf]
  rw [hroot]
  have hdoms : initialDoms.modify (fun n =>
      { n with children := n.children ++ wiredRootIds 1 [some e] }) 0
      ++ wiredFreshL 1 [some e] = mountedDoms e := by
    rw [show wiredFreshL 1 [some e]
        = wiredFresh 1 e ++ wiredFreshL (1 + countE e) [] from by
      simp [wiredFreshL]]
    rw [show wiredFreshL (1 + countE e) ([] : List (Option Element)) = []
      from by simp [wiredFreshL]]
    rw [show wiredRootIds 1 [some e] = [1] from by simp [wiredRootIds]]
    simp [initialDoms, mountedDoms, containerAfterMount, List.modify]
  rw [hdoms]
  simp

theorem secondPassRun (e : Element) (he : WfR e) (fuel : Nat) :
    runSecondPass (countE e + 2 + fuel) e
      = .ok ({ doms := mountedDoms e, flushed := some (root2FiberOf e),
               wipDeletions := [] },
          root2FiberOf e, [], []) := by
  unfold runSecondPass
  rw [mountFresh e he fuel]
  dsimp only
  unfold runPass
  rw [show countE e + 2 + fuel = countE e + 1 + (1 + fuel) from by omega]
  rw [secondLoop e he (1 + fuel)]
  dsimp only
  unfold commit
  rw [show commitDeletions (countE e + 1 + (1 + fuel)) (mountedDoms e) []
      = .ok (mountedDoms e, []) from by
    rw [show countE e + 1 + (1 + fuel) = (countE e + 1 + fuel) + 1 from by
      omega]
    rfl]
  dsimp only [root2FiberOf, Fiber.dom, Fiber.children]
  rw [show countE e + 1 + (1 + fuel)
      = countEL [some e] + 1 + (1 + fuel) from by simp [countEL]]
  rw [show [updFresh 1 e] = updFreshL 1 [some e] from by
    simp [updFreshL]]
  rw [commitChainUpd [some e] 1 0 (mountedDoms e) (1 + fuel)]
  simp [root2FiberOf]

end ReactJs

namespace ReactJs

/-! ## The structural isomorphism of the mounted host tree -/

theorem mkFreshNode_attrs (t : String) (p : Props) :
    (mkFreshNode t p).attrs = p.filter (fun kv => isProperty kv.1) := by
  unfold mkFreshNode
  split <;> rfl

theorem mkFreshNode_listeners (t : String) (p : Props) :
    (mkFreshNode t p).listeners
      = (p.filter (fun kv => isEvent kv.1)).map
          (fun kv => (getEventType kv.1, kv.2)) := by
  unfold mkFreshNode
  split <;> rfl

theorem mkFreshNode_isText (t : String) (p : Props) :
    (mkFreshNode t p).isText = (t = "TEXT_ELEMENT" : Bool) := by
  unfold mkFreshNode
  split <;> simp_all

theorem mkFreshNode_tag (t : String) (p : Props) (h : ¬ t = "TEXT_ELEMENT") :
    (mkFreshNode t p).tag = t := by
  unfold mkFreshNode
  rw [if_neg h]

theorem get?_append_mid {α : Type} (pre : List α) (x : α) (l : List α) :
    (pre ++ x :: l).get? pre.length = some x := by
  simp [List.getElem?_append, List.getElem_append_right]

theorem wiredRootIds_len (els : List (Option Element)) (h : WfRL els) :
    ∀ b, (wiredRootIds b els).length = els.length := by
  induction els with
  | nil => intro b; simp [wiredRootIds]
  | cons c rest ih =>
    intro b
    cases c with
    | none => simp only [WfRL] at h
    | some e =>
      have hrest : WfRL rest := by
        simp only [WfRL] at h
        exact h.2
      simp [wiredRootIds, ih hrest]

end ReactJs

namespace ReactJs

mutual

/-- The committed host subtree of a well-formed element is structurally
isomorphic to it. -/
theorem isoFresh (e : Element) : ∀ (k : Nat), WfR e → countE e ≤ k →
    ∀ (pre post : DomArena),
    isoChk k (pre ++ wiredFresh pre.length e ++ post) pre.length e = true := by
  intro k he hk pre post
  cases e with
  | mk ty p cs =>
  cases ty with
  | fn i r =>
    have hr' : WfR r := by simpa only [WfR] using he
    cases k with
    | zero =>
      exfalso
      rw [show countE (Element.mk (.fn i r) p cs) = 1 + countE r from by
        simp [countE]] at hk
      omega
    | succ k' =>
      have hk' : countE r ≤ k' := by
        rw [show countE (Element.mk (.fn i r) p cs) = 1 + countE r from by
          simp [countE]] at hk
        omega
      rw [show wiredFresh pre.length (Element.mk (.fn i r) p cs)
          = wiredFresh pre.length r from by simp [wiredFresh]]
      simp only [isoChk]
      exact isoFresh r k' hr' hk' pre post
  | tag t =>
    simp only [WfR] at he
    obtain ⟨h1, h2, h3, h4⟩ := he
    cases k with
    | zero =>
      exfalso
      rw [show countE (Element.mk (.tag t) p cs) = 1 + countEL cs from by
        simp [countE]] at hk
      omega
    | succ k' =>
      have hk' : countEL cs ≤ k' := by
        rw [show countE (Element.mk (.tag t) p cs) = 1 + countEL cs from by
          simp [countE]] at hk
        omega
      rw [show pre ++ wiredFresh pre.length (Element.mk (.tag t) p cs) ++ post
          = pre ++ ({ mkFreshNode t p with
              children := wiredRootIds (pre.length + 1) cs }
            :: (wiredFreshL (pre.length + 1) cs ++ post)) from by
        simp [wiredFresh]]
      simp only [isoChk]
      rw [get?_append_mid]
      simp only [mkFreshNode_attrs, mkFreshNode_listeners, mkFreshNode_isText]
      by_cases ht : t = "TEXT_ELEMENT"
      · have hcs : cs = [] := h3 ht
        subst hcs
        simp [ht, wiredRootIds]
      · have hall := isoFreshL cs k' h4 hk'
          (pre ++ [{ mkFreshNode t p with
            children := wiredRootIds (pre.length + 1) cs }])
          post
        simp only [List.length_append, List.length_cons, List.length_nil,
          Nat.zero_add, Nat.add_zero, List.append_assoc,
          List.singleton_append, List.cons_append, List.nil_append] at hall
        simp [ht, mkFreshNode_attrs, mkFreshNode_listeners,
          mkFreshNode_isText, mkFreshNode_tag t p ht] at hall
        simp [ht, mkFreshNode_tag t p ht,
          wiredRootIds_len cs h4 (pre.length + 1)]
        exact hall
termination_by (sizeOf e, 0)

/-- `isoFresh` over a committed child-slot block. -/
theorem isoFreshL (els : List (Option Element)) : ∀ (k : Nat), WfRL els →
    countEL els ≤ k → ∀ (pre post : DomArena),
    ((wiredRootIds pre.length els).zip els).all (fun pr =>
      match pr.2 with
      | some ce =>
        isoChk k (pre ++ wiredFreshL pre.length els ++ post) pr.1 ce
      | none => false) = true := by
  intro k hw hk pre post
  cases els with
  | nil => simp [wiredRootIds]
  | cons c rest =>
    cases c with
    | none => simp only [WfRL] at hw
    | some e =>
      have hke : countE e ≤ k := by
        rw [show countEL (some e :: rest) = countE e + countEL rest from by
          simp [countEL]] at hk
        omega
      have hkr : countEL rest ≤ k := by
        rw [show countEL (some e :: rest) = countE e + countEL rest from by
          simp [countEL]] at hk
        omega
      rw [show wiredRootIds pre.length (some e :: rest)
          = pre.length :: wiredRootIds (pre.length + countN e) rest from by
        simp [wiredRootIds]]
      rw [show wiredFreshL pre.length (some e :: rest)
          = wiredFresh pre.length e
            ++ wiredFreshL (pre.length + countN e) rest from by
        simp [wiredFreshL]]
      rw [List.zip_cons_cons, List.all_cons, Bool.and_eq_true]
      constructor
      · have hhead := isoFresh e k (WfRL_head hw) hke pre
          (wiredFreshL (pre.length + countN e) rest ++ post)
        simp only [List.append_assoc] at hhead ⊢
        exact hhead
      · have htail := isoFreshL rest k (WfRL_tail hw) hkr
          (pre ++ wiredFresh pre.length e) post
        simp only [List.length_append, wired_len, List.append_assoc]
          at htail
        simp only [List.append_assoc]
        exact htail
termination_by (sizeOf els, 1)

end

end ReactJs

namespace ReactJs

/-! ## Every second-pass fiber carries the `UPDATE` tag -/

mutual

theorem allUpd_updFresh (e : Element) : ∀ (b k : Nat), countE e ≤ k →
    allUpdChk k (updFresh b e) = true := by
  intro b k hk
  cases e with
  | mk ty p cs =>
  cases ty with
  | fn i r =>
    cases k with
    | zero =>
      exfalso
      rw [show countE (Element.mk (.fn i r) p cs) = 1 + countE r from by
        simp [countE]] at hk
      omega
    | succ k' =>
      have hk' : countE r ≤ k' := by
        rw [show countE (Element.mk (.fn i r) p cs) = 1 + countE r from by
          simp [countE]] at hk
        omega
      rw [show updFresh b (Element.mk (.fn i r) p cs)
          = .mk (some (.fn i r)) p cs none
              (some (buildFresh b (Element.mk (.fn i r) p cs)).1)
              (some "UPDATE") [updFresh b r] from by simp [updFresh]]
      simp only [allUpdChk, Fiber.effectTag, Fiber.children]
      simp [allUpd_updFresh r b k' hk']
  | tag t =>
    cases k with
    | zero =>
      exfalso
      rw [show countE (Element.mk (.tag t) p cs) = 1 + countEL cs from by
        simp [countE]] at hk
      omega
    | succ k' =>
      have hk' : countEL cs ≤ k' := by
        rw [show countE (Element.mk (.tag t) p cs) = 1 + countEL cs from by
          simp [countE]] at hk
        omega
      rw [show updFresh b (Element.mk (.tag t) p cs)
          = .mk (some (.tag t)) p cs (some b)
              (some (buildFresh b (Element.mk (.tag t) p cs)).1)
              (some "UPDATE")
              (updFreshL (b + 1) cs) from by simp [updFresh]]
      simp only [allUpdChk, Fiber.effectTag, Fiber.children]
      simp [allUpd_updFreshL cs (b + 1) k' hk']
termination_by (sizeOf e, 0)

theorem allUpd_updFreshL (els : List (Option Element)) :
    ∀ (b k : Nat), countEL els ≤ k →
    (updFreshL b els).all (fun c => allUpdChk k c) = true := by
  intro b k hk
  cases els with
  | nil => simp [updFreshL]
  | cons c rest =>
    cases c with
    | none =>
      rw [show updFreshL b (none :: rest) = updFreshL b rest from by
        simp [updFreshL]]
      exact allUpd_updFreshL rest b k (by
        rw [show countEL (none :: rest) = countEL rest from by
          simp [countEL]] at hk
        exact hk)
    | some e =>
      have hke : countE e ≤ k := by
        rw [show countEL (some e :: rest) = countE e + countEL rest from by
          simp [countEL]] at hk
        omega
      have hkr : countEL rest ≤ k := by
        rw [show countEL (some e :: rest) = countE e + countEL rest from by
          simp [countEL]] at hk
        omega
      rw [show updFreshL b (some e :: rest)
          = updFresh b e :: updFreshL (b + countN e) rest from by
        simp [updFreshL]]
      simp [allUpd_updFresh e b k hke,
        allUpd_updFreshL rest (b + countN e) k hkr]
termination_by (sizeOf els, 1)

end

/-! ## From the fueled checker to the structural invariant -/

theorem wfChk_WfR : ∀ (n : Nat) (e : Element), wfChk n e = true → WfR e := by
  intro n
  induction n with
  | zero =>
    intro e h
    simp [wfChk] at h
  | succ n ih =>
    intro e h
    cases e with
    | mk ty p cs =>
    cases ty with
    | fn i r =>
      rw [show wfChk (n + 1) (Element.mk (.fn i r) p cs)
          = wfChk n r from by simp [wfChk]] at h
      simp only [WfR]
      exact ih r h
    | tag t =>
      simp only [wfChk, Bool.and_eq_true] at h
      obtain ⟨⟨⟨h1, h2⟩, h3⟩, h4⟩ := h
      simp only [WfR]
      refine ⟨by simpa using h1, by simpa using h2, ?_, ?_⟩
      · intro ht
        rw [if_pos ht] at h3
        simpa using h3
      · clear h1 h2 h3
        revert h4
        induction cs with
        | nil =>
          intro _
          simp [WfRL]
        | cons c rest ihc =>
          intro h4
          rw [List.all_cons, Bool.and_eq_true] at h4
          obtain ⟨hc, hrest⟩ := h4
          cases c with
          | none => simp at hc
          | some e₁ =>
            simp only [WfRL]
            exact ⟨ih e₁ hc, ihc hrest⟩

end ReactJs

namespace ReactJs

/-! ## Concrete prop-key facts for the end-to-end scenario -/

theorem isEvent_id : isEvent "id" = false := by
  rw [show isEvent "id" = String.substrEq "id" ⟨0⟩ "on" ⟨0⟩ 2 from rfl]
  unfold String.substrEq
  rw [String.substrEq.loop]
  simp only [show (("id".get ⟨0⟩) == ("on".get ⟨0⟩)) = false from rfl]
  simp

theorem isEvent_nodeValue : isEvent "nodeValue" = false := by
  rw [show isEvent "nodeValue"
      = String.substrEq "nodeValue" ⟨0⟩ "on" ⟨0⟩ 2 from rfl]
  unfold String.substrEq
  rw [String.substrEq.loop]
  simp only [show (("nodeValue".get ⟨0⟩) == ("on".get ⟨0⟩)) = false from rfl]
  simp

theorem isProperty_id : isProperty "id" = true := by
  simp [isProperty, isEvent_id]

theorem isProperty_nodeValue : isProperty "nodeValue" = true := by
  simp [isProperty, isEvent_nodeValue]

theorem elHello_def : elHello
    = Element.mk (.tag "div") [("id", Value.str "foo")]
    [some (Element.mk (.tag "h1") [] [some (Element.mk (.tag "TEXT_ELEMENT")
      [("nodeValue", Value.str "Hello")] [])])] := rfl

theorem wfChk_elHello : wfChk 3 elHello = true := by
  rw [elHello_def]
  simp [wfChk, jsKeys, List.filter_cons, isEvent_id, isEvent_nodeValue]

theorem mkFreshNode_div : mkFreshNode "div" [("id", Value.str "foo")]
    = { isText := false, tag := "div", attrs := [("id", Value.str "foo")],
        listeners := [], children := [] } := by
  unfold mkFreshNode
  rw [if_neg (by decide)]
  simp [List.filter_cons, isProperty_id, isEvent_id]

theorem mkFreshNode_h1 : mkFreshNode "h1" []
    = { isText := false, tag := "h1", attrs := [], listeners := [],
        children := [] } := by
  unfold mkFreshNode
  rw [if_neg (by decide)]
  simp

theorem mkFreshNode_text :
    mkFreshNode "TEXT_ELEMENT" [("nodeValue", Value.str "Hello")]
    = { isText := true, tag := "",
        attrs := [("nodeValue", Value.str "Hello")], listeners := [],
        children := [] } := by
  unfold mkFreshNode
  rw [if_pos rfl]
  simp [List.filter_cons, isProperty_nodeValue, isEvent_nodeValue]

theorem mountedDoms_elHello : mountedDoms elHello
    = [containerAfterMount,
       { isText := false, tag := "div", attrs := [("id", Value.str "foo")],
         listeners := [], children := [2] },
       { isText := false, tag := "h1", attrs := [], listeners := [],
         children := [3] },
       { isText := true, tag := "",
         attrs := [("nodeValue", Value.str "Hello")], listeners := [],
         children := [] }] := by
  rw [mountedDoms, elHello_def]
  simp [wiredFresh, wiredFreshL, wiredRootIds, countN, countNL,
    mkFreshNode_div, mkFreshNode_h1, mkFreshNode_text]

theorem wfChk_elComp : wfChk 4 elComp = true := by
  rw [show wfChk 4 elComp = wfChk 3 elHello from by
    rw [show elComp = Element.mk (.fn 0 elHello) [] [] from rfl,
      show (4 : Nat) = 3 + 1 from rfl]
    simp only [wfChk]]
  exact wfChk_elHello

theorem mountedDoms_elComp : mountedDoms elComp = mountedDoms elHello := by
  rw [show elComp = Element.mk (.fn 0 elHello) [] [] from rfl]
  simp [mountedDoms, wiredFresh]

end ReactJs

namespace ReactJs

/-- C1: for every well-formed element tree — host elements, text elements
and component-function elements alike — a full render pass (`render`
followed by the work loop running to completion) followed by `commit`
succeeds and produces a host tree structurally isomorphic to the element
tree: one host node per non-component element, allocated in pre-order,
carrying exactly the element's non-reserved props as attributes and its
`on*` props as listeners (`isoChk`), with the container gaining exactly
one child.  A component element materializes no host node of its own —
its fiber keeps `dom = null` and `commitNode`'s `domParent` climb passes
through it — and contributes exactly the host subtree of its rendered
output.  In particular mounting `<div id="foo"><h1>Hello</h1></div>` into
the empty container leaves the container with one div child with
`id = "foo"` whose only grandchild is an h1 bearing the text `"Hello"`;
and mounting a component whose body renders that same tree produces the
identical host arena while the component's committed fiber carries no
host node. -/
theorem c1_fresh_mount_isomorphic :
    (∀ e : Element, WfEl e →
      ∃ N, ∀ m, N ≤ m →
        ∃ st root lm cm,
          mount m e = .ok (st, root, lm, cm)
          ∧ st.doms = mountedDoms e
          ∧ (st.doms.get? 0).map DomNode.children = some [1]
          ∧ isoChk (countE e) st.doms 1 e = true)
    ∧ (∃ N, ∀ m, N ≤ m →
        ∃ st root lm cm,
          mount m elHello = .ok (st, root, lm, cm)
          ∧ st.doms
            = [containerAfterMount,
               { isText := false, tag := "div",
                 attrs := [("id", Value.str "foo")], listeners := [],
                 children := [2] },
               { isText := false, tag := "h1", attrs := [], listeners := [],
                 children := [3] },
               { isText := true, tag := "",
                 attrs := [("nodeValue", Value.str "Hello")],
                 listeners := [], children := [] }])
    ∧ (∃ N, ∀ m, N ≤ m →
        ∃ st lm cm,
          mount m elComp = .ok (st, rootFiberOf elComp, lm, cm)
          ∧ st.doms = mountedDoms elHello
          ∧ (rootFiberOf elComp).children.map Fiber.dom = [none]
          ∧ isoChk (countE elComp) st.doms 1 elComp = true) := by
  have main : ∀ e : Element, WfR e → ∀ m, countE e + 2 ≤ m →
      ∃ st lm cm,
        mount m e = .ok (st, rootFiberOf e, lm, cm)
        ∧ st.doms = mountedDoms e
        ∧ (st.doms.get? 0).map DomNode.children = some [1]
        ∧ isoChk (countE e) st.doms 1 e = true := by
    intro e hr m hm
    obtain ⟨fuel, rfl⟩ : ∃ f, m = countE e + 2 + f :=
      ⟨m - (countE e + 2), by omega⟩
    refine ⟨_, _, _, mountFresh e hr fuel, rfl, ?_, ?_⟩
    · simp [mountedDoms, containerAfterMount]
    · have hiso := isoFresh e (countE e) hr (Nat.le_refl _)
        [containerAfterMount] []
      simp only [show List.length [containerAfterMount] = 1 from rfl,
        List.append_nil, List.singleton_append] at hiso
      show isoChk (countE e) (mountedDoms e) 1 e = true
      rw [mountedDoms]
      exact hiso
  refine ⟨?_, ?_, ?_⟩
  · intro e hwf
    obtain ⟨n, hw⟩ := hwf
    refine ⟨countE e + 2, fun m hm => ?_⟩
    obtain ⟨st, lm, cm, hmount, hrest⟩ := main e (wfChk_WfR n e hw) m hm
    exact ⟨st, rootFiberOf e, lm, cm, hmount, hrest⟩
  · refine ⟨countE elHello + 2, fun m hm => ?_⟩
    obtain ⟨st, lm, cm, hmount, hdoms, _, _⟩ :=
      main elHello (wfChk_WfR 3 elHello wfChk_elHello) m hm
    exact ⟨st, rootFiberOf elHello, lm, cm, hmount,
      by rw [hdoms, mountedDoms_elHello]⟩
  · refine ⟨countE elComp + 2, fun m hm => ?_⟩
    obtain ⟨st, lm, cm, hmount, hdoms, _, hiso⟩ :=
      main elComp (wfChk_WfR 4 elComp wfChk_elComp) m hm
    refine ⟨st, lm, cm, hmount, by rw [hdoms, mountedDoms_elComp], ?_, hiso⟩
    rw [show elComp = Element.mk (.fn 0 elHello) [] [] from rfl]
    simp [rootFiberOf, Fiber.children, Fiber.dom, buildFresh_fn_def]

theorem c1_fresh_mount_isomorphic_witness :
    (∃ N, ∀ m, N ≤ m →
      ∃ st root lm cm,
        mount m elHello = .ok (st, root, lm, cm)
        ∧ st.doms = mountedDoms elHello
        ∧ (st.doms.get? 0).map DomNode.children = some [1]
        ∧ isoChk (countE elHello) st.doms 1 elHello = true)
    ∧ (∃ N, ∀ m, N ≤ m →
      ∃ st root lm cm,
        mount m elComp = .ok (st, root, lm, cm)
        ∧ st.doms = mountedDoms elComp
        ∧ (st.doms.get? 0).map DomNode.children = some [1]
        ∧ isoChk (countE elComp) st.doms 1 elComp = true) :=
  ⟨c1_fresh_mount_isomorphic.1 elHello ⟨3, wfChk_elHello⟩,
   c1_fresh_mount_isomorphic.1 elComp ⟨4, wfChk_elComp⟩⟩

/-- C4: idempotence of commit — when a second pass presents the same
element tree as the committed one (the root re-seeding `setState` performs
from inside a component: the new root carries the committed root's props
and children with `alt` pointing at it, as `rerenderRoot` mirrors), every
position pairs its fiber with a previous-generation fiber of identical
kind — equal host-tag strings, or the same component-function reference —
so every reconciled fiber of the second pass is tagged `"UPDATE"`, the
prop delta `updateDom` computes against identical props is empty, and the
second pass performs zero host mutation calls: both its work-loop call log
and its commit call log are `[]` and the arena is unchanged from the first
commit.  This holds over component-bearing trees (where alone `setState`
can fire), the component-bearing instance spelled out alongside the
general law. -/
theorem c4_second_pass_idempotent :
    (∀ e : Element, WfEl e →
      ∃ N, ∀ m, N ≤ m →
        ∃ st₁ root₁ lm cm st₂,
          mount m e = .ok (st₁, root₁, lm, cm)
          ∧ runSecondPass m e = .ok (st₂, root2FiberOf e, [], [])
          ∧ st₂.doms = st₁.doms
          ∧ (root2FiberOf e).children.all
              (fun c => allUpdChk (countE e) c) = true)
    ∧ (∃ N, ∀ m, N ≤ m →
        ∃ st₁ root₁ lm cm st₂,
          mount m elComp = .ok (st₁, root₁, lm, cm)
          ∧ runSecondPass m elComp = .ok (st₂, root2FiberOf elComp, [], [])
          ∧ st₂.doms = st₁.doms
          ∧ (root2FiberOf elComp).children.all
              (fun c => allUpdChk (countE elComp) c) = true)
    ∧ (∀ (d : Nat) (p : Props), updateDomMuts d p p = []) := by
  have main : ∀ e : Element, WfR e →
      ∃ N, ∀ m, N ≤ m →
        ∃ st₁ root₁ lm cm st₂,
          mount m e = .ok (st₁, root₁, lm, cm)
          ∧ runSecondPass m e = .ok (st₂, root2FiberOf e, [], [])
          ∧ st₂.doms = st₁.doms
          ∧ (root2FiberOf e).children.all
              (fun c => allUpdChk (countE e) c) = true := by
    intro e hr
    refine ⟨countE e + 2, fun m hm => ?_⟩
    obtain ⟨fuel, rfl⟩ : ∃ f, m = countE e + 2 + f :=
      ⟨m - (countE e + 2), by omega⟩
    refine ⟨_, _, _, _, _, mountFresh e hr fuel, secondPassRun e hr fuel,
      rfl, ?_⟩
    rw [show (root2FiberOf e).children = [updFresh 1 e] from by
      simp [root2FiberOf, Fiber.children]]
    simp [allUpd_updFresh e 1 (countE e) (Nat.le_refl _)]
  refine ⟨?_, ?_, ?_⟩
  · intro e hwf
    obtain ⟨n, hw⟩ := hwf
    exact main e (wfChk_WfR n e hw)
  · exact main elComp (wfChk_WfR 4 elComp wfChk_elComp)
  · exact fun d p => updateDomMuts_self d p

theorem c4_second_pass_idempotent_witness :
    (∃ N, ∀ m, N ≤ m →
      ∃ st₁ root₁ lm cm st₂,
        mount m elHello = .ok (st₁, root₁, lm, cm)
        ∧ runSecondPass m elHello = .ok (st₂, root2FiberOf elHello, [], [])
        ∧ st₂.doms = st₁.doms
        ∧ (root2FiberOf elHello).children.all
            (fun c => allUpdChk (countE elHello) c) = true)
    ∧ (∃ N, ∀ m, N ≤ m →
      ∃ st₁ root₁ lm cm st₂,
        mount m elComp = .ok (st₁, root₁, lm, cm)
        ∧ runSecondPass m elComp = .ok (st₂, root2FiberOf elComp, [], [])
        ∧ st₂.doms = st₁.doms
        ∧ (root2FiberOf elComp).children.all
            (fun c => allUpdChk (countE elComp) c) = true)
    ∧ updateDomMuts 7 [("id", Value.str "foo")] [("id", Value.str "foo")]
      = [] :=
  ⟨c4_second_pass_idempotent.1 elHello ⟨3, wfChk_elHello⟩,
   c4_second_pass_idempotent.1 elComp ⟨4, wfChk_elComp⟩,
   c4_second_pass_idempotent.2.2 7 [("id", Value.str "foo")]⟩

end ReactJs
